import Mathlib

/-!
# Verification of the tgAutoResponse state-management subsystem

Shallow embedding of `src/tgAutoResponse/tg_ai_bot2.py`: the corpus loader
(`load_all_docs`), the bounded conversation store, the JSON persistence layer
(`save_data`/`load_data`), the history log with size-based rotation, and the
mention-parsing logic of `handle_mention`.

Python strings are modelled as `List Char` (Python `str` is a sequence of code
points) or as Lean `String` where convenient; file contents are text
(`String`), with UTF-8 byte counts computed by an explicit encoder where the
source measures sizes in bytes.  The `json` standard-library text layer is
modelled by an executable printer mirroring `json.dump(..., ensure_ascii=False,
indent=2)` and an executable recursive-descent reader mirroring the JSON
grammar `json.load` implements (restricted to integer numerals; float
literals, `NaN`/`Infinity`, and invalid-UTF-8 files fall outside the model, and
none of the stated properties involve them).

The file is laid out as definitions first, then theorems.
-/

namespace TgBot

/-! ## Python string primitives -/

/-- Python `str.strip()` whitespace test, for the characters that occur here. -/
def pyWs (c : Char) : Bool :=
  c = ' ' ∨ c = '\n' ∨ c = '\t' ∨ c = '\r'

/-- Python `s.strip()` on a code-point list: drop whitespace from both ends. -/
def pyStrip (cs : List Char) : List Char :=
  ((cs.dropWhile pyWs).reverse.dropWhile pyWs).reverse

/-- Python `s.strip()` on a `String`. -/
def pyStripStr (s : String) : String :=
  String.mk (pyStrip s.data)

/-- Python `l[-k:]`.  For `k = 0` this is the whole list (`l[-0:] = l[0:]`);
for `k > 0` it is the last `k` elements (all of `l` when `k ≥ len(l)`). -/
def pySliceLast {α : Type} (l : List α) (k : Nat) : List α :=
  if k = 0 then l else l.drop (l.length - k)

/-- Python `s.lower()`, adequate for the ASCII bot handles that occur here. -/
def pyLower (cs : List Char) : List Char :=
  cs.map Char.toLower

/-- Python `s.replace(pat, "")` for a single-character pattern. -/
def pyRemoveChar (cs : List Char) (c : Char) : List Char :=
  cs.filter (fun x => x ≠ c)

/-- Python `s.endswith(suf)`. -/
def pyEndsWith (s suf : List Char) : Bool :=
  List.isPrefixOf suf.reverse s.reverse

/-- Python `s.startswith(pre)`. -/
def pyStartsWith (s pre : List Char) : Bool :=
  List.isPrefixOf pre s

/-! ## ConversationStore (tg_ai_bot2.py lines 697–707 and 247–249)

A conversation entry, Python dict `{"role": ..., "content": ...}`. -/

structure Turn where
  role : String
  content : String
deriving DecidableEq, Repr

/-- Lines 699–705 of `handle_mention`: push the user turn, push the assistant
turn, then trim with `ctx[-max_context_msg:]` when the length exceeds
`max_context_msg`. -/
def appendTurnPair (ctx : List Turn) (q a : String) (maxMsg : Nat) : List Turn :=
  let ctx2 := ctx ++ [⟨"user", q⟩, ⟨"assistant", a⟩]
  if ctx2.length > maxMsg then pySliceLast ctx2 maxMsg else ctx2

/-- N successive exchanges starting from the empty context. -/
def appendPairs (ps : List (String × String)) (maxMsg : Nat) : List Turn :=
  ps.foldl (fun c p => appendTurnPair c p.1 p.2 maxMsg) []

/-- The untrimmed sequence of turns of a list of exchanges. -/
def allTurns (ps : List (String × String)) : List Turn :=
  ps.flatMap (fun p => [⟨"user", p.1⟩, ⟨"assistant", p.2⟩])

/-- Default of `CONFIG["bot_config"]["max_context_msg"]` (line 89). -/
def max_context_msg : Nat := 20

/-! ## MentionParser (tg_ai_bot2.py lines 640–662)

A Telegram message entity as used by `handle_mention`: a typed span given by
a code-point offset and length into the message text. -/

structure MsgEntity where
  type : String
  offset : Nat
  length : Nat
deriving DecidableEq, Repr

/-- Python `text[off : off + len]` on code points. -/
def sliceSpan (text : List Char) (e : MsgEntity) : List Char :=
  (text.drop e.offset).take e.length

/-- Line 644–648: the entity is of type `"mention"` and its text, lower-cased
with every `@` removed, equals the bot's (lower-case) username. -/
def entityMatches (text bot : List Char) (e : MsgEntity) : Bool :=
  e.type = "mention" ∧ pyRemoveChar (pyLower (sliceSpan text e)) '@' = bot

/-- The loop of lines 642–654: scan entities in order, stop (`break`) at the
first one that addresses the bot. -/
def firstBotMention (text bot : List Char) : List MsgEntity → Option MsgEntity
  | [] => none
  | e :: es =>
    if entityMatches text bot e then some e else firstBotMention text bot es

/-- Line 651: `message.text[:offset] + message.text[offset + length:]`. -/
def removeSpan (text : List Char) (e : MsgEntity) : List Char :=
  text.take e.offset ++ text.drop (e.offset + e.length)

/-- Lines 628–662 of `handle_mention`, up to the API call: decide whether the
message addresses the bot and extract the question.  Returns
`(is_mention_me, user_question)`; when no entity matches, `user_question`
is the stripped original text (line 628) but `is_mention_me = false` and the
handler returns without further processing (line 657–658). -/
def mentionParse (text : List Char) (ents : List MsgEntity) (bot : List Char) :
    Bool × List Char :=
  match firstBotMention text bot ents with
  | none => (false, pyStrip text)
  | some e => (true, pyStrip (removeSpan text e))

/-! ## The JSON text layer (`json.dump` / `json.load`)

`save_data` (lines 274–289) writes `json.dump(bot_data, f, ensure_ascii=False,
indent=2)` and `load_data` (lines 292–336) reads with `json.load`.  The value
space of that library, for the data this program stores, is modelled by
`Json`; numbers are restricted to integers (this program's state contains no
numbers at all, and its printer never emits a float literal). -/

inductive Json where
  | null
  | bool (b : Bool)
  | num (n : Int)
  | str (s : String)
  | arr (xs : List Json)
  | obj (fs : List (String × Json))
deriving Repr

/-- An opening curly bracket character. -/
def lbrace : Char := '\x7b'

/-- A closing curly bracket character. -/
def rbrace : Char := '\x7d'

/-- A run of `n` spaces, the indentation `json.dump(..., indent=2)` emits. -/
def spacesN (n : Nat) : List Char := List.replicate n ' '

/-- Lower-case hexadecimal digit, as CPython's `\uXXXX` escapes use. -/
def hexDigitChar (n : Nat) : Char :=
  if n < 10 then Char.ofNat (48 + n) else Char.ofNat (87 + n)

/-- The escaping `json.dump(..., ensure_ascii=False)` applies to one character:
quote and backslash are escaped, control characters get their short escapes or
a `\u00XX` escape, everything else is emitted verbatim. -/
def escChar (c : Char) : List Char :=
  if c = '"' then ['\\', '"']
  else if c = '\\' then ['\\', '\\']
  else if c = '\n' then ['\\', 'n']
  else if c = '\t' then ['\\', 't']
  else if c = '\r' then ['\\', 'r']
  else if c.toNat = 8 then ['\\', 'b']
  else if c.toNat = 12 then ['\\', 'f']
  else if c.toNat < 32 then
    ['\\', 'u', '0', '0', hexDigitChar (c.toNat / 16), hexDigitChar (c.toNat % 16)]
  else [c]

/-- Escape a whole string body. -/
def escString (s : List Char) : List Char := s.flatMap escChar

/-- A JSON string literal: quote, escaped body, quote. -/
def printStrLit (s : String) : List Char := '"' :: (escString s.data ++ ['"'])

/-- Decimal digit character. -/
def digitChar (n : Nat) : Char := Char.ofNat (48 + n)

/-- Decimal digits of a natural number, most significant first. -/
def natDigits (n : Nat) : List Char :=
  if n < 10 then [digitChar n]
  else natDigits (n / 10) ++ [digitChar (n % 10)]
termination_by n
decreasing_by exact Nat.div_lt_self (by omega) (by omega)

/-- The decimal rendering of an integer, as `json.dump` prints `int`. -/
def intChars (n : Int) : List Char :=
  if n < 0 then '-' :: natDigits n.natAbs else natDigits n.natAbs

mutual

/-- The `json.dump(..., ensure_ascii=False, indent=2)` output for a value whose
enclosing container is indented by `k` spaces. -/
def printVal (k : Nat) : Json → List Char
  | .null => "null".data
  | .bool true => "true".data
  | .bool false => "false".data
  | .num n => intChars n
  | .str s => printStrLit s
  | .arr [] => "[]".data
  | .arr (x :: xs) =>
    '[' :: '\n' :: (spacesN (k + 2) ++ printVal (k + 2) x
      ++ printArrItems (k + 2) xs ++ '\n' :: (spacesN k ++ [']']))
  | .obj [] => [lbrace, rbrace]
  | .obj ((key, v) :: fs) =>
    lbrace :: '\n' :: (spacesN (k + 2) ++ printStrLit key
      ++ ':' :: ' ' :: printVal (k + 2) v
      ++ printObjItems (k + 2) fs ++ '\n' :: (spacesN k ++ [rbrace]))

/-- The `",\n" + indent + item` continuation for array elements after the
first, at element indentation `k`. -/
def printArrItems (k : Nat) : List Json → List Char
  | [] => []
  | x :: xs => ',' :: '\n' :: (spacesN k ++ printVal k x ++ printArrItems k xs)

/-- The `",\n" + indent + key + ": " + value` continuation for object fields
after the first, at field indentation `k`. -/
def printObjItems (k : Nat) : List (String × Json) → List Char
  | [] => []
  | (key, v) :: fs =>
    ',' :: '\n' :: (spacesN k ++ printStrLit key
      ++ ':' :: ' ' :: printVal k v ++ printObjItems k fs)

end

/-- The full text `json.dump(j, f, ensure_ascii=False, indent=2)` writes. -/
def dumpJson (j : Json) : String := String.mk (printVal 0 j)

/-- JSON (and Python) whitespace skipped between tokens: the same four
characters as `pyWs`. -/
def skipWs (s : List Char) : List Char := s.dropWhile pyWs

/-- Value of one hexadecimal digit. -/
def hexVal (c : Char) : Option Nat :=
  if '0' ≤ c ∧ c ≤ '9' then some (c.toNat - 48)
  else if 'a' ≤ c ∧ c ≤ 'f' then some (c.toNat - 87)
  else if 'A' ≤ c ∧ c ≤ 'F' then some (c.toNat - 55)
  else none

/-- One-character JSON escapes. -/
def escDecode (e : Char) : Option Char :=
  if e = '"' then some '"'
  else if e = '\\' then some '\\'
  else if e = '/' then some '/'
  else if e = 'b' then some (Char.ofNat 8)
  else if e = 'f' then some (Char.ofNat 12)
  else if e = 'n' then some '\n'
  else if e = 'r' then some '\r'
  else if e = 't' then some '\t'
  else none

/-- Read a JSON string body after its opening quote, un-escaping, up to and
including the closing quote; returns the body and the remaining input. -/
def parseStringBody : List Char → Option (List Char × List Char)
  | [] => none
  | c :: rest =>
    if c = '"' then some ([], rest)
    else if c = '\\' then
      match rest with
      | [] => none
      | e :: rest2 =>
        if e = 'u' then
          match rest2 with
          | h1 :: h2 :: h3 :: h4 :: rest3 =>
            match hexVal h1, hexVal h2, hexVal h3, hexVal h4 with
            | some a, some b, some c2, some d =>
              match parseStringBody rest3 with
              | some (cs, r) =>
                some (Char.ofNat (((a * 16 + b) * 16 + c2) * 16 + d) :: cs, r)
              | none => none
            | _, _, _, _ => none
          | _ => none
        else
          match escDecode e with
          | some d =>
            match parseStringBody rest2 with
            | some (cs, r) => some (d :: cs, r)
            | none => none
          | none => none
    else
      match parseStringBody rest with
      | some (cs, r) => some (c :: cs, r)
      | none => none

/-- Value of a decimal digit character. -/
def digitVal (c : Char) : Nat := c.toNat - 48

/-- Read a run of decimal digits as a natural number. -/
def parseNatNum (s : List Char) : Option (Nat × List Char) :=
  let digs := s.takeWhile Char.isDigit
  if digs = [] then none
  else some (digs.foldl (fun a c => a * 10 + digitVal c) 0,
    s.dropWhile Char.isDigit)

/-- The reader's three states: reading one value, or looping over the
elements of a non-empty array, or over the fields of a non-empty object (the
accumulators hold what has been read so far, in order). -/
inductive PMode where
  | val
  | arrElems (acc : List Json)
  | objFields (acc : List (String × Json))
deriving Repr

/-- Fueled recursive-descent reader mirroring the grammar `json.load`
implements (integer numerals only).  The two element loops are fused into one
function with `parseCore`'s mode argument so that the recursion is structural
on the fuel and evaluates inside the kernel; the fuel only bounds recursion
depth, and `parseJson` supplies more than any input can consume. -/
def parseCore : Nat → PMode → List Char → Option (Json × List Char)
  | 0, _, _ => none
  | fuel + 1, .val, input =>
    match skipWs input with
    | 'n' :: 'u' :: 'l' :: 'l' :: rest => some (.null, rest)
    | 't' :: 'r' :: 'u' :: 'e' :: rest => some (.bool true, rest)
    | 'f' :: 'a' :: 'l' :: 's' :: 'e' :: rest => some (.bool false, rest)
    | '"' :: rest =>
      match parseStringBody rest with
      | some (cs, r) => some (.str (String.mk cs), r)
      | none => none
    | '[' :: rest =>
      match skipWs rest with
      | ']' :: r => some (.arr [], r)
      | _ => parseCore fuel (.arrElems []) rest
    | '\x7b' :: rest =>
      match skipWs rest with
      | '\x7d' :: r => some (.obj [], r)
      | _ => parseCore fuel (.objFields []) rest
    | '-' :: rest =>
      match parseNatNum rest with
      | some (n, r) => some (.num (-(n : Int)), r)
      | none => none
    | c :: rest =>
      if c.isDigit then
        match parseNatNum (c :: rest) with
        | some (n, r) => some (.num (n : Int), r)
        | none => none
      else none
    | [] => none
  | fuel + 1, .arrElems acc, s =>
    match parseCore fuel .val s with
    | some (v, r) =>
      match skipWs r with
      | ',' :: r2 => parseCore fuel (.arrElems (acc ++ [v])) r2
      | ']' :: r2 => some (.arr (acc ++ [v]), r2)
      | _ => none
    | none => none
  | fuel + 1, .objFields acc, s =>
    match skipWs s with
    | '"' :: rest =>
      match parseStringBody rest with
      | some (key, r1) =>
        match skipWs r1 with
        | ':' :: r2 =>
          match parseCore fuel .val r2 with
          | some (v, r3) =>
            match skipWs r3 with
            | ',' :: r4 => parseCore fuel (.objFields (acc ++ [(String.mk key, v)])) r4
            | '\x7d' :: r4 => some (.obj (acc ++ [(String.mk key, v)]), r4)
            | _ => none
          | none => none
        | _ => none
      | none => none
    | _ => none

/-- Reading a whole text as `json.load` does: one value, then only whitespace. -/
def parseJson (s : List Char) : Option Json :=
  match parseCore (2 * s.length + 2) .val s with
  | some (j, rest) => if skipWs rest = [] then some j else none
  | none => none

mutual

/-- Fuel sufficient for one value (one unit per container and per element). -/
def fuelOf : Json → Nat
  | .null => 1
  | .bool _ => 1
  | .num _ => 1
  | .str _ => 1
  | .arr xs => 1 + fuelList xs
  | .obj fs => 1 + fuelFields fs

def fuelList : List Json → Nat
  | [] => 0
  | x :: xs => 1 + max (fuelOf x) (fuelList xs)

def fuelFields : List (String × Json) → Nat
  | [] => 0
  | (_, v) :: fs => 1 + max (fuelOf v) (fuelFields fs)

end

/-- The remaining input after a printed numeral must not begin with a digit,
or the numeral would absorb it. -/
def noDigitHead (s : List Char) : Prop :=
  ∀ c, s.head? = some c → c.isDigit = false

/-! ## The bot's persisted state (`bot_data`, lines 150–155)

The in-memory record `{"conversation_context": ..., "knowledge_base": ...,
"custom_prompt": ...}`. -/

structure BotData where
  conversation_context : List Turn
  knowledge_base : String
  custom_prompt : String
deriving DecidableEq, Repr

/-- The string `CONFIG["prompt_config"]["default_system_prompt"]` (line 101). -/
def default_system_prompt : String :=
  "你是本群组的智能助手，核心规则：\n1. 优先且精准参考docs文件夹中的所有txt文件内容回答问题；\n2. 结合历史对话上下文，回答完整、准确，不要遗漏关键信息；\n3. 保持友好的交流语气，语言自然，符合日常聊天习惯。"

/-- The default empty state written by `load_data`'s recovery branches
(lines 313–317, 322–326, 330–334). -/
def defaultBotData : BotData := ⟨[], "", default_system_prompt⟩

/-- One context entry as the JSON value `json.dump` serializes. -/
def turnToJson (t : Turn) : Json :=
  .obj [("role", .str t.role), ("content", .str t.content)]

/-- The record `bot_data` as the JSON value `json.dump` serializes (key order is the
dict's insertion order, lines 151–155). -/
def botDataToJson (d : BotData) : Json :=
  .obj [("conversation_context", .arr (d.conversation_context.map turnToJson)),
    ("knowledge_base", .str d.knowledge_base),
    ("custom_prompt", .str d.custom_prompt)]

/-- Recognize a parsed JSON value of exactly the shape `save_data` writes.
`load_data` itself performs no validation: a well-formed file yields this
shape, anything else is kept verbatim (see `LoadedState.raw`). -/
def turnOfJson : Json → Option Turn
  | .obj [("role", .str r), ("content", .str c)] => some ⟨r, c⟩
  | _ => none

/-- See `turnOfJson`. -/
def turnsOfJson : List Json → Option (List Turn)
  | [] => some []
  | j :: js =>
    match turnOfJson j, turnsOfJson js with
    | some t, some ts => some (t :: ts)
    | _, _ => none

/-- See `turnOfJson`. -/
def botDataOfJson : Json → Option BotData
  | .obj [("conversation_context", .arr ts), ("knowledge_base", .str kb),
      ("custom_prompt", .str p)] =>
    match turnsOfJson ts with
    | some l => some ⟨l, kb, p⟩
    | none => none
  | _ => none

/-- Model of `save_data` (lines 274–289): the text
`json.dump(bot_data, f, ensure_ascii=False, indent=2)` writes over the data
file.  A write failure is caught and logged (lines 287–289) leaving the file
unchanged; the successful write is modelled. -/
def save_data (d : BotData) : String := dumpJson (botDataToJson d)

/-- What `load_data` leaves in `bot_data`: either a value of the expected
shape, or — since `json.load`'s result is assigned without validation
(line 308) — the raw parsed value. -/
inductive LoadedState where
  | wellFormed (d : BotData)
  | raw (j : Json)
deriving Repr

/-- Result of `load_data`: the new in-memory state, the new data-file
content, and whether the `json.JSONDecodeError` branch (lines 310–318) ran. -/
structure LoadResult where
  state : LoadedState
  file : Option String
  corrupt : Bool
deriving Repr

/-- Model of `load_data` (lines 292–336): restore `bot_data` from the data file.
Missing file → default state, created on disk; unparseable file → default
state re-persisted (self-healing); parseable file → its value verbatim. -/
def load_data (file : Option String) : LoadResult :=
  match file with
  | none =>
    ⟨.wellFormed defaultBotData, some (save_data defaultBotData), false⟩
  | some text =>
    match parseJson text.data with
    | none =>
      ⟨.wellFormed defaultBotData, some (save_data defaultBotData), true⟩
    | some j =>
      match botDataOfJson j with
      | some d => ⟨.wellFormed d, some text, false⟩
      | none => ⟨.raw j, some text, false⟩

/-! ## CorpusLoader (`load_all_docs`, lines 159–271) -/

/-- One directory entry as `load_all_docs` sees it: name, byte size, and the
decoded text (`none` models a read failure, caught at lines 212–214). -/
structure DirEntry where
  name : String
  size : Nat
  content : Option String
deriving DecidableEq, Repr

/-- The delimiter header of line 209. -/
def docHeader (filename : String) : String :=
  "\n\n===== 【文档：" ++ filename ++ "】 =====\n"

/-- The constant `MAX_SINGLE_FILE_SIZE` (line 176): 10 MB. -/
def max_single_file_size : Nat := 10485760

/-- One iteration of the document loop (lines 187–214). -/
def addDoc (kb : String) (e : DirEntry) : String :=
  if ¬ pyEndsWith (pyLower e.name.data) ".txt".data then kb
  else if e.size > max_single_file_size then kb
  else
    match e.content with
    | none => kb
    | some c =>
      let c2 := pyStripStr c
      if c2 ≠ "" then kb ++ docHeader e.name ++ c2 else kb

/-- The whole rebuild of lines 179–214: clear, then fold over the listing. -/
def buildKb (entries : List DirEntry) : String := entries.foldl addDoc ""

/-- Split text into lines, as iterating `f.readlines()` and stripping does
(the split points are the newlines; each piece is stripped later). -/
def splitLinesAux : List Char → List Char → List (List Char)
  | [], cur => [cur.reverse]
  | c :: rest, cur =>
    if c = '\n' then cur.reverse :: splitLinesAux rest []
    else splitLinesAux rest (c :: cur)

/-- See `splitLinesAux`. -/
def splitLines (text : List Char) : List (List Char) := splitLinesAux text []

/-- Python `s.replace(pat, "")` for a non-empty pattern: remove every
(leftmost, non-overlapping) occurrence.  Fueled so the recursion is
structural; the fuel `s.length` is enough because every step consumes at
least one character. -/
def removeAllSubF : Nat → List Char → List Char → List Char
  | 0, _, _ => []
  | _, _, [] => []
  | fuel + 1, pat, c :: rest =>
    if pat ≠ [] ∧ List.isPrefixOf pat (c :: rest) then
      removeAllSubF fuel pat (List.drop (pat.length - 1) rest)
    else c :: removeAllSubF fuel pat rest

/-- See `removeAllSubF`. -/
def pyReplaceEmpty (s pat : List Char) : List Char :=
  removeAllSubF s.length pat s

/-- The transcript parser of lines 229–245: scan stripped lines, pair a
`【用户】` line with the next `【助手】` line, keeping a pair only when both
sides are non-empty. -/
def histStep (st : List Turn × List Char × List Char) (line : List Char) :
    List Turn × List Char × List Char :=
  let l := pyStrip line
  if pyStartsWith l "【用户】".data then
    (st.1, pyStrip (pyReplaceEmpty l "【用户】".data), st.2.2)
  else if pyStartsWith l "【助手】".data then
    let a2 := pyStrip (pyReplaceEmpty l "【助手】".data)
    if st.2.1 ≠ [] ∧ a2 ≠ [] then
      (st.1 ++ [⟨"user", String.mk st.2.1⟩, ⟨"assistant", String.mk a2⟩],
        [], [])
    else (st.1, st.2.1, a2)
  else st

/-- See `histStep`. -/
def parseHistory (text : List Char) : List Turn :=
  ((splitLines text).foldl histStep ([], [], [])).1

/-- The trim of lines 248–249 (same slice as lines 703–705). -/
def trimCtx (ctx : List Turn) (maxMsg : Nat) : List Turn :=
  if ctx.length > maxMsg then pySliceLast ctx maxMsg else ctx

/-- The header written when the transcript file is created (lines 220–221
and 536–537). -/
def historyHeader : String := "# 群聊对话历史\n\n"

/-- The file-backed state `load_all_docs` and `handle_mention` touch: the
in-memory `bot_data`, the JSON data file, and the transcript file. -/
structure World where
  data : BotData
  dataFile : Option String
  historyFile : Option String
deriving DecidableEq, Repr

/-- Model of `load_all_docs` (lines 159–271): rebuild the knowledge base from the
directory listing; then, if the transcript file exists, re-derive the
conversation context from it (trimmed), else create the file with its header
and leave the context untouched; finally persist via `save_data`.  The
user-facing summary string (`notify`) does not affect state and is omitted. -/
def load_all_docs (entries : List DirEntry) (w : World) : World :=
  let d1 : BotData := { w.data with knowledge_base := buildKb entries }
  match w.historyFile with
  | none =>
    { data := d1, dataFile := some (save_data d1),
      historyFile := some historyHeader }
  | some text =>
    let ctx2 := trimCtx (parseHistory text.data) max_context_msg
    let d2 : BotData := { d1 with conversation_context := ctx2 }
    { data := d2, dataFile := some (save_data d2),
      historyFile := some text }

/-! ## HistoryLog byte layer and rotation (lines 709–726) -/

/-- UTF-8 encoding of one character, as Python's `str.encode("utf-8")`. -/
def charUtf8 (c : Char) : List Nat :=
  let n := c.toNat
  if n < 128 then [n]
  else if n < 2048 then [192 + n / 64, 128 + n % 64]
  else if n < 65536 then
    [224 + n / 4096, 128 + (n / 64) % 64, 128 + n % 64]
  else
    [240 + n / 262144, 128 + (n / 4096) % 64, 128 + (n / 64) % 64,
      128 + n % 64]

/-- The UTF-8 bytes of a string. -/
def strUtf8 (s : String) : List Nat := s.data.flatMap charUtf8

/-- Legal range of the first continuation byte of a 3-byte sequence. -/
def cont3Ok (b c : Nat) : Bool :=
  if b = 224 then 160 ≤ c ∧ c ≤ 191
  else if b = 237 then 128 ≤ c ∧ c ≤ 159
  else 128 ≤ c ∧ c ≤ 191

/-- Legal range of the first continuation byte of a 4-byte sequence. -/
def cont4Ok (b c : Nat) : Bool :=
  if b = 240 then 144 ≤ c ∧ c ≤ 191
  else if b = 244 then 128 ≤ c ∧ c ≤ 143
  else 128 ≤ c ∧ c ≤ 191

/-- Plain continuation byte. -/
def contOk (c : Nat) : Bool := 128 ≤ c ∧ c ≤ 191

/-- Model of `bytes.decode("utf-8", errors="ignore")`: keep well-formed sequences,
drop undecodable bytes.  Fueled for structural recursion; every step consumes
at least one byte. -/
def utf8DecodeIgnore : Nat → List Nat → List Char
  | 0, _ => []
  | _, [] => []
  | fuel + 1, b :: bs =>
    if b < 128 then Char.ofNat b :: utf8DecodeIgnore fuel bs
    else if 194 ≤ b ∧ b ≤ 223 then
      match bs with
      | c :: bs2 =>
        if contOk c then
          Char.ofNat ((b - 192) * 64 + (c - 128)) :: utf8DecodeIgnore fuel bs2
        else utf8DecodeIgnore fuel bs
      | [] => []
    else if 224 ≤ b ∧ b ≤ 239 then
      match bs with
      | c :: d :: bs2 =>
        if cont3Ok b c ∧ contOk d then
          Char.ofNat ((b - 224) * 4096 + (c - 128) * 64 + (d - 128))
            :: utf8DecodeIgnore fuel bs2
        else utf8DecodeIgnore fuel bs
      | _ => []
    else if 240 ≤ b ∧ b ≤ 244 then
      match bs with
      | c :: d :: e :: bs2 =>
        if cont4Ok b c ∧ contOk d ∧ contOk e then
          Char.ofNat ((b - 240) * 262144 + (c - 128) * 4096
              + (d - 128) * 64 + (e - 128))
            :: utf8DecodeIgnore fuel bs2
        else utf8DecodeIgnore fuel bs
      | _ => []
    else utf8DecodeIgnore fuel bs

/-- See `utf8DecodeIgnore`. -/
def utf8Ignore (bs : List Nat) : List Char :=
  utf8DecodeIgnore (bs.length + 1) bs

/-- The constant `MAX_CHAT_FILE_SIZE` (line 711): 100 MB. -/
def max_chat_file_size : Nat := 104857600

/-- The constant `TRIM_TO_SIZE` (line 712): 50 MB. -/
def trim_to_size : Nat := 52428800

/-- The rotation marker comment of line 722. -/
def rotationMarker : String := "# 群聊对话历史（自动截断，仅保留最后50MB）\n\n"

/-- Lines 714–722: when the byte size exceeds the hard cap, keep only the
trailing soft-cap slice (seeked bytewise, decoded ignoring errors) behind the
rotation marker. -/
def rotateHistory (content : String) : String :=
  let bytes := strUtf8 content
  if bytes.length > max_chat_file_size then
    rotationMarker
      ++ String.mk (utf8Ignore (bytes.drop (bytes.length - trim_to_size)))
  else content

/-- The record of line 726 for one exchange. -/
def historyRecord (q a : String) : String :=
  "【用户】" ++ q ++ "\n【助手】" ++ a ++ "\n\n"

/-- Lines 713–726 as a whole: the rotation check runs first, strictly before
the new record is appended (append mode creates a missing file). -/
def historyAppendText (file : Option String) (record : String) : String :=
  (match file with
   | some content => rotateHistory content
   | none => "") ++ record

/-! ## PromptAssembler commit path and error path (lines 603–739) -/

/-- Outcome of the external model collaborator
(`client.chat.completions.create`, lines 688–695). -/
inductive ModelResp where
  | ok (reply : String)
  | err (msg : String)
deriving DecidableEq, Repr

/-- The user-visible outcome of `handle_mention`. -/
inductive HandlerOut where
  | notAddressed
  | noQuestion (userName : String)
  | noClient
  | answered (reply : String)
  | failed (msg : String)
deriving DecidableEq, Repr

/-- Commit step 1 (lines 697–705): append the pair to the context, trimming. -/
def stepContext (q a : String) (w : World) : World :=
  let ctx2 := appendTurnPair w.data.conversation_context q a max_context_msg
  { w with data := { w.data with conversation_context := ctx2 } }

/-- Commit step 2 (line 707): persist the full state over the data file. -/
def stepPersist (w : World) : World :=
  { w with dataFile := some (save_data w.data) }

/-- Commit step 3 (lines 709–726): rotate if oversized, then append the
record to the transcript file. -/
def stepHistory (q a : String) (w : World) : World :=
  let h2 := some (historyAppendText w.historyFile (historyRecord q a))
  { w with historyFile := h2 }

/-- Model of `handle_mention` (lines 603–739) for a text message: parse the mention,
bail out when not addressed / no question / no client, then either surface
the model error as a failure reply with no state change, or run the commit
sequence inline in source order: context append and trim (697–705), persist
(707), history rotation and append (709–726), reply (729). -/
def handle_mention (w : World) (text : List Char) (ents : List MsgEntity)
    (bot : List Char) (userName : String) (hasClient : Bool)
    (resp : ModelResp) : World × HandlerOut :=
  let pq := mentionParse text ents bot
  if ¬ pq.1 then (w, .notAddressed)
  else if pq.2 = [] then (w, .noQuestion userName)
  else if ¬ hasClient then (w, .noClient)
  else
    match resp with
    | .err e => (w, .failed ("❌ 回答失败：" ++ e))
    | .ok reply =>
      let qs := String.mk pq.2
      let ctx2 := appendTurnPair w.data.conversation_context qs reply
        max_context_msg
      let d2 : BotData := { w.data with conversation_context := ctx2 }
      let dataFile2 := some (save_data d2)
      let hist2 := some (historyAppendText w.historyFile
        (historyRecord qs reply))
      ({ data := d2, dataFile := dataFile2, historyFile := hist2 },
        .answered reply)

/-- A history file one byte over the hard cap (all ASCII). -/
def bigHistoryFile : String :=
  String.mk (List.replicate (max_chat_file_size + 1) 'a')

/-- A concrete one-exchange record. -/
def recQA : String := historyRecord "q" "a"

/-! # Theorems -/

/-! ## Characters, whitespace and digits -/

theorem toNat_ofNat_valid (n : Nat) (h : n.isValidChar) :
    (Char.ofNat n).toNat = n := by
  rw [Char.ofNat, dif_pos h]
  rfl

theorem skipWs_append_all {lead s : List Char}
    (h : ∀ c ∈ lead, pyWs c = true) : skipWs (lead ++ s) = skipWs s := by
  induction lead with
  | nil => rfl
  | cons c l ih =>
    rw [List.cons_append, skipWs, List.dropWhile_cons,
      if_pos (h c (by simp))]
    exact ih (fun c hc => h c (by simp [hc]))

theorem skipWs_cons_not {c : Char} (s : List Char) (h : pyWs c = false) :
    skipWs (c :: s) = c :: s := by
  rw [skipWs, List.dropWhile_cons, if_neg (by simp [h])]

theorem spacesN_all_ws (n : Nat) : ∀ c ∈ spacesN n, pyWs c = true := by
  intro c hc
  rw [List.eq_of_mem_replicate (show c ∈ List.replicate n ' ' from hc)]
  decide

theorem mem_cons_ws {c₀ : Char} {l : List Char} (hc : pyWs c₀ = true)
    (hl : ∀ c ∈ l, pyWs c = true) : ∀ c ∈ c₀ :: l, pyWs c = true := by
  intro c hc2
  rcases List.mem_cons.mp hc2 with rfl | h
  · exact hc
  · exact hl c h

theorem noDigitHead_cons {c : Char} (s : List Char) (h : c.isDigit = false) :
    noDigitHead (c :: s) := by
  intro d hd
  simp only [List.head?_cons, Option.some.injEq] at hd
  rw [← hd]
  exact h

theorem digitChar_lt_props :
    ∀ d, d < 10 → (digitChar d).isDigit = true ∧ pyWs (digitChar d) = false ∧
      digitChar d ≠ ']' ∧ digitChar d ≠ rbrace ∧ digitVal (digitChar d) = d := by
  decide

theorem natDigits_unfold (n : Nat) :
    natDigits n = if n < 10 then [digitChar n]
      else natDigits (n / 10) ++ [digitChar (n % 10)] := by
  rw [natDigits]

theorem natDigits_all_digits (n : Nat) :
    ∀ c ∈ natDigits n, c.isDigit = true := by
  induction n using Nat.strong_induction_on with
  | _ n ih =>
    rw [natDigits_unfold]
    by_cases h : n < 10
    · rw [if_pos h]
      intro c hc
      simp only [List.mem_singleton] at hc
      exact hc ▸ (digitChar_lt_props n h).1
    · rw [if_neg h]
      intro c hc
      rcases List.mem_append.mp hc with h1 | h2
      · exact ih (n / 10) (Nat.div_lt_self (by omega) (by omega)) c h1
      · simp only [List.mem_singleton] at h2
        exact h2 ▸ (digitChar_lt_props (n % 10) (Nat.mod_lt _ (by omega))).1

theorem natDigits_head (n : Nat) :
    ∃ d t, d < 10 ∧ natDigits n = digitChar d :: t := by
  induction n using Nat.strong_induction_on with
  | _ n ih =>
    rw [natDigits_unfold]
    by_cases h : n < 10
    · exact ⟨n, [], h, by rw [if_pos h]⟩
    · obtain ⟨d, t, hd, ht⟩ := ih (n / 10) (Nat.div_lt_self (by omega) (by omega))
      exact ⟨d, t ++ [digitChar (n % 10)], hd, by rw [if_neg h, ht]; rfl⟩

theorem takeWhile_append_all {α : Type} {p : α → Bool} {l r : List α}
    (hl : ∀ c ∈ l, p c = true) :
    (l ++ r).takeWhile p = l ++ r.takeWhile p := by
  induction l with
  | nil => rfl
  | cons x xs ih =>
    rw [List.cons_append, List.takeWhile_cons, if_pos (hl x (by simp)),
      ih (fun c hc => hl c (by simp [hc]))]
    rfl

theorem dropWhile_append_all {α : Type} {p : α → Bool} {l r : List α}
    (hl : ∀ c ∈ l, p c = true) :
    (l ++ r).dropWhile p = r.dropWhile p := by
  induction l with
  | nil => rfl
  | cons x xs ih =>
    rw [List.cons_append, List.dropWhile_cons, if_pos (hl x (by simp))]
    exact ih (fun c hc => hl c (by simp [hc]))

theorem takeWhile_nil_of_head {p : Char → Bool} {r : List Char}
    (h : ∀ c, r.head? = some c → p c = false) :
    r.takeWhile p = [] := by
  cases r with
  | nil => rfl
  | cons c s =>
    rw [List.takeWhile_cons, if_neg (by simp [h c rfl])]

theorem dropWhile_nil_of_head {p : Char → Bool} {r : List Char}
    (h : ∀ c, r.head? = some c → p c = false) :
    r.dropWhile p = r := by
  cases r with
  | nil => rfl
  | cons c s =>
    rw [List.dropWhile_cons, if_neg (by simp [h c rfl])]

theorem digitsVal_natDigits (n : Nat) :
    (natDigits n).foldl (fun a c => a * 10 + digitVal c) 0 = n := by
  induction n using Nat.strong_induction_on with
  | _ n ih =>
    rw [natDigits_unfold]
    by_cases h : n < 10
    · rw [if_pos h]
      simp [List.foldl, (digitChar_lt_props n h).2.2.2.2]
    · rw [if_neg h, List.foldl_append]
      rw [ih (n / 10) (Nat.div_lt_self (by omega) (by omega))]
      simp only [List.foldl]
      rw [(digitChar_lt_props (n % 10) (Nat.mod_lt _ (by omega))).2.2.2.2]
      omega

theorem parseNatNum_natDigits (n : Nat) (rest : List Char)
    (hrest : noDigitHead rest) :
    parseNatNum (natDigits n ++ rest) = some (n, rest) := by
  have htake : (natDigits n ++ rest).takeWhile Char.isDigit = natDigits n := by
    rw [takeWhile_append_all (natDigits_all_digits n),
      takeWhile_nil_of_head hrest, List.append_nil]
  have hdrop : (natDigits n ++ rest).dropWhile Char.isDigit = rest := by
    rw [dropWhile_append_all (natDigits_all_digits n),
      dropWhile_nil_of_head hrest]
  have hne : natDigits n ≠ [] := by
    obtain ⟨d, t, _, ht⟩ := natDigits_head n
    simp [ht]
  rw [parseNatNum]
  simp only [htake, hdrop, if_neg hne]
  rw [digitsVal_natDigits]

/-! ## String literals round-trip -/

theorem hexDigitChar_hexVal : ∀ m, m < 16 → hexVal (hexDigitChar m) = some m := by
  decide

theorem parseStringBody_escChar (c : Char) {tail cs rest : List Char}
    (ih : parseStringBody tail = some (cs, rest)) :
    parseStringBody (escChar c ++ tail) = some (c :: cs, rest) := by
  by_cases h1 : c = '"'
  · subst h1
    rw [escChar.eq_def]
    simp only [if_pos rfl]
    rw [parseStringBody.eq_def]
    simp [escDecode, ih]
  by_cases h2 : c = '\\'
  · subst h2
    rw [escChar.eq_def]
    simp only [if_pos rfl]
    rw [parseStringBody.eq_def]
    simp [escDecode, ih]
  by_cases h3 : c = '\n'
  · subst h3
    rw [escChar.eq_def]
    simp only [if_pos rfl]
    rw [parseStringBody.eq_def]
    simp [escDecode, ih]
  by_cases h4 : c = '\t'
  · subst h4
    rw [escChar.eq_def]
    simp only [if_pos rfl]
    rw [parseStringBody.eq_def]
    simp [escDecode, ih]
  by_cases h5 : c = '\r'
  · subst h5
    rw [escChar.eq_def]
    simp only [if_pos rfl]
    rw [parseStringBody.eq_def]
    simp [escDecode, ih]
  by_cases h6 : c.toNat = 8
  · have hc : c = Char.ofNat 8 := by
      rw [← h6, Char.ofNat_toNat]
    rw [escChar, if_neg h1, if_neg h2, if_neg h3, if_neg h4, if_neg h5,
      if_pos h6]
    subst hc
    rw [parseStringBody.eq_def]
    simp [escDecode, ih]
  by_cases h7 : c.toNat = 12
  · have hc : c = Char.ofNat 12 := by
      rw [← h7, Char.ofNat_toNat]
    rw [escChar, if_neg h1, if_neg h2, if_neg h3, if_neg h4, if_neg h5,
      if_neg h6, if_pos h7]
    subst hc
    rw [parseStringBody.eq_def]
    simp [escDecode, ih]
  by_cases h8 : c.toNat < 32
  · rw [escChar, if_neg h1, if_neg h2, if_neg h3, if_neg h4, if_neg h5,
      if_neg h6, if_neg h7, if_pos h8]
    have hv0 : hexVal '0' = some 0 := by decide
    have hv1 : hexVal (hexDigitChar (c.toNat / 16)) = some (c.toNat / 16) :=
      hexDigitChar_hexVal _ (by omega)
    have hv2 : hexVal (hexDigitChar (c.toNat % 16)) = some (c.toNat % 16) :=
      hexDigitChar_hexVal _ (by omega)
    have hval : c.toNat / 16 * 16 + c.toNat % 16 = c.toNat := by omega
    have hval2 : Char.ofNat (c.toNat / 16 * 16 + c.toNat % 16) = c := by
      rw [hval, Char.ofNat_toNat]
    rw [parseStringBody.eq_def]
    simp [hv0, hv1, hv2, ih, hval2]
  · rw [escChar, if_neg h1, if_neg h2, if_neg h3, if_neg h4, if_neg h5,
      if_neg h6, if_neg h7, if_neg h8]
    rw [parseStringBody.eq_def]
    simp [h1, h2, ih]

theorem parseStringBody_escString (s : List Char) (rest : List Char) :
    parseStringBody (escString s ++ '"' :: rest) = some (s, rest) := by
  induction s with
  | nil =>
    rw [escString, List.flatMap_nil, List.nil_append, parseStringBody.eq_def]
    simp
  | cons c cs ih =>
    have : escString (c :: cs) ++ '"' :: rest
        = escChar c ++ (escString cs ++ '"' :: rest) := by
      simp [escString]
    rw [this]
    exact parseStringBody_escChar c ih

/-! ## Printed values: head shape and fuel bounds -/

theorem natDigits_ne_nil (n : Nat) : natDigits n ≠ [] := by
  obtain ⟨d, t, _, ht⟩ := natDigits_head n
  simp [ht]

theorem intChars_ne_nil (n : Int) : intChars n ≠ [] := by
  rw [intChars]
  split
  · simp
  · exact natDigits_ne_nil _

theorem printVal_head_spec (k : Nat) (j : Json) :
    ∃ c t, printVal k j = c :: t ∧ pyWs c = false ∧ c ≠ ']' ∧ c ≠ rbrace := by
  cases j with
  | null => exact ⟨'n', ['u', 'l', 'l'], rfl, by decide, by decide, by decide⟩
  | bool b =>
    cases b with
    | true => exact ⟨'t', ['r', 'u', 'e'], rfl, by decide, by decide, by decide⟩
    | false =>
      exact ⟨'f', ['a', 'l', 's', 'e'], rfl, by decide, by decide, by decide⟩
  | num n =>
    show ∃ c t, intChars n = c :: t ∧ _
    rw [intChars]
    split
    · exact ⟨'-', natDigits n.natAbs, rfl, by decide, by decide, by decide⟩
    · obtain ⟨d, t, hd, ht⟩ := natDigits_head n.natAbs
      obtain ⟨_, hws, hne1, hne2, _⟩ := digitChar_lt_props d hd
      exact ⟨digitChar d, t, ht, hws, hne1, hne2⟩
  | str s => exact ⟨'"', escString s.data ++ ['"'], rfl, by decide, by decide, by decide⟩
  | arr xs =>
    cases xs with
    | nil => exact ⟨'[', [']'], rfl, by decide, by decide, by decide⟩
    | cons x xs =>
      refine ⟨'[', _, rfl, by decide, by decide, by decide⟩
  | obj fs =>
    cases fs with
    | nil => exact ⟨lbrace, [rbrace], rfl, by decide, by decide, by decide⟩
    | cons f fs =>
      obtain ⟨key, v⟩ := f
      refine ⟨lbrace, _, rfl, by decide, by decide, by decide⟩

mutual

theorem fuelOf_le_printVal (k : Nat) (j : Json) :
    fuelOf j ≤ (printVal k j).length := by
  cases j with
  | null => simp [fuelOf, printVal]
  | bool b => cases b <;> simp [fuelOf, printVal]
  | num n =>
    have := intChars_ne_nil n
    have : 0 < (intChars n).length := List.length_pos.mpr this
    simp only [fuelOf, printVal]
    omega
  | str s => simp [fuelOf, printVal, printStrLit]
  | arr xs =>
    cases xs with
    | nil => simp [fuelOf, fuelList, printVal]
    | cons x xs =>
      have h1 := fuelOf_le_printVal (k + 2) x
      have h2 := fuelList_le_printArrItems (k + 2) xs
      simp only [fuelOf, fuelList, printVal, List.length_cons,
        List.length_append, List.length_singleton]
      omega
  | obj fs =>
    cases fs with
    | nil => simp [fuelOf, fuelFields, printVal]
    | cons f fs =>
      obtain ⟨key, v⟩ := f
      have h1 := fuelOf_le_printVal (k + 2) v
      have h2 := fuelFields_le_printObjItems (k + 2) fs
      simp only [fuelOf, fuelFields, printVal, List.length_cons,
        List.length_append, List.length_singleton]
      omega

theorem fuelList_le_printArrItems (k : Nat) (xs : List Json) :
    fuelList xs ≤ (printArrItems k xs).length := by
  cases xs with
  | nil => simp [fuelList, printArrItems]
  | cons x xs =>
    have h1 := fuelOf_le_printVal k x
    have h2 := fuelList_le_printArrItems k xs
    simp only [fuelList, printArrItems, List.length_cons, List.length_append]
    omega

theorem fuelFields_le_printObjItems (k : Nat) (fs : List (String × Json)) :
    fuelFields fs ≤ (printObjItems k fs).length := by
  cases fs with
  | nil => simp [fuelFields, printObjItems]
  | cons f fs =>
    obtain ⟨key, v⟩ := f
    have h1 := fuelOf_le_printVal k v
    have h2 := fuelFields_le_printObjItems k fs
    simp only [fuelFields, printObjItems, List.length_cons, List.length_append]
    omega

end

/-! ## Parser completeness on printed output -/

theorem fuelOf_pos (j : Json) : 1 ≤ fuelOf j := by
  cases j <;> simp [fuelOf]

theorem fuelList_cons_pos (x : Json) (xs : List Json) :
    1 ≤ fuelList (x :: xs) := by
  simp [fuelList]

theorem fuelFields_cons_pos (p : String × Json) (fs : List (String × Json)) :
    1 ≤ fuelFields (p :: fs) := by
  obtain ⟨key, v⟩ := p
  simp [fuelFields]

theorem stringMk_data (s : String) : String.mk s.data = s := rfl

theorem skipWs_lead_printVal (lead : List Char)
    (hlead : ∀ c ∈ lead, pyWs c = true) (k : Nat) (j : Json)
    (rest : List Char) :
    skipWs (lead ++ (printVal k j ++ rest)) = printVal k j ++ rest := by
  rw [skipWs_append_all hlead]
  obtain ⟨c, t, hct, hws, _, _⟩ := printVal_head_spec k j
  rw [hct, List.cons_append, skipWs_cons_not _ hws]

theorem digitChar_not_heads : ∀ d, d < 10 →
    digitChar d ≠ 'n' ∧ digitChar d ≠ 't' ∧ digitChar d ≠ 'f' ∧
      digitChar d ≠ '"' ∧ digitChar d ≠ '[' ∧ digitChar d ≠ lbrace ∧
      digitChar d ≠ '-' := by
  decide

theorem parseCore_val_numCase (f : Nat) (n : Int) (rest : List Char)
    (hrest : noDigitHead rest) :
    parseCore (f + 1) .val (intChars n ++ rest) = some (.num n, rest) := by
  rw [intChars]
  split
  · rename_i hneg
    have step : parseCore (f + 1) .val (('-' :: natDigits n.natAbs) ++ rest)
        = match parseNatNum (natDigits n.natAbs ++ rest) with
          | some (m, r) => some (.num (-(m : Int)), r)
          | none => none := rfl
    have hval : (-(n.natAbs : Int)) = n := by omega
    rw [step, parseNatNum_natDigits _ _ hrest]
    show some (Json.num (-(n.natAbs : Int)), rest) = some (Json.num n, rest)
    rw [hval]
  · rename_i hpos
    obtain ⟨d, t, hd, hnd⟩ := natDigits_head n.natAbs
    rw [hnd, List.cons_append]
    have hstep : parseCore (f + 1) .val (digitChar d :: (t ++ rest))
        = match skipWs (digitChar d :: (t ++ rest)) with
          | 'n' :: 'u' :: 'l' :: 'l' :: r => some (.null, r)
          | 't' :: 'r' :: 'u' :: 'e' :: r => some (.bool true, r)
          | 'f' :: 'a' :: 'l' :: 's' :: 'e' :: r => some (.bool false, r)
          | '"' :: r =>
            match parseStringBody r with
            | some (cs, r2) => some (.str (String.mk cs), r2)
            | none => none
          | '[' :: r =>
            match skipWs r with
            | ']' :: r2 => some (.arr [], r2)
            | _ => parseCore f (.arrElems []) r
          | '\x7b' :: r =>
            match skipWs r with
            | '\x7d' :: r2 => some (.obj [], r2)
            | _ => parseCore f (.objFields []) r
          | '-' :: r =>
            match parseNatNum r with
            | some (m, r2) => some (.num (-(m : Int)), r2)
            | none => none
          | c :: r =>
            if c.isDigit then
              match parseNatNum (c :: r) with
              | some (m, r2) => some (.num (m : Int), r2)
              | none => none
            else none
          | [] => none := rfl
    rw [hstep, skipWs_cons_not _ (digitChar_lt_props d hd).2.1]
    obtain ⟨hn1, hn2, hn3, hn4, hn5, hn6, hn7⟩ := digitChar_not_heads d hd
    split
    · rename_i r heq
      exact absurd (List.cons.inj heq).1 hn1
    · rename_i r heq
      exact absurd (List.cons.inj heq).1 hn2
    · rename_i r heq
      exact absurd (List.cons.inj heq).1 hn3
    · rename_i r heq
      exact absurd (List.cons.inj heq).1 hn4
    · rename_i r heq
      exact absurd (List.cons.inj heq).1 hn5
    · rename_i r heq
      exact absurd (List.cons.inj heq).1 hn6
    · rename_i r heq
      exact absurd (List.cons.inj heq).1 hn7
    · rename_i c r heq
      obtain ⟨hc, hr⟩ := List.cons.inj heq
      subst hc
      subst hr
      have hval : ((n.natAbs : Nat) : Int) = n := by omega
      rw [if_pos (digitChar_lt_props d hd).1, ← List.cons_append, ← hnd,
        parseNatNum_natDigits _ _ hrest]
      show some (Json.num ((n.natAbs : Nat) : Int), rest) = some (Json.num n, rest)
      rw [hval]
    · rename_i heq
      exact absurd heq (by simp)

theorem parseCore_val_congr (f : Nat) (a b : List Char)
    (h : skipWs a = skipWs b) :
    parseCore (f + 1) .val a = parseCore (f + 1) .val b := by
  simp only [parseCore]
  rw [h]

theorem parseCore_val_strCase (f : Nat) (s : String) (rest : List Char) :
    parseCore (f + 1) .val (printStrLit s ++ rest) = some (.str s, rest) := by
  have h0 : printStrLit s ++ rest
      = '"' :: (escString s.data ++ '"' :: rest) := by
    simp [printStrLit]
  rw [h0]
  have step : parseCore (f + 1) .val ('"' :: (escString s.data ++ '"' :: rest))
      = match parseStringBody (escString s.data ++ '"' :: rest) with
        | some (cs, r) => some (.str (String.mk cs), r)
        | none => none := rfl
  rw [step, parseStringBody_escString]

mutual

theorem parseCore_val_complete (fuel : Nat) (lead : List Char)
    (hlead : ∀ c ∈ lead, pyWs c = true) (k : Nat) (j : Json)
    (rest : List Char) (hf : fuelOf j ≤ fuel) (hrest : noDigitHead rest) :
    parseCore fuel .val (lead ++ (printVal k j ++ rest)) = some (j, rest) := by
  obtain ⟨f, rfl⟩ : ∃ f, fuel = f + 1 :=
    ⟨fuel - 1, by have := fuelOf_pos j; omega⟩
  have hin : parseCore (f + 1) .val (lead ++ (printVal k j ++ rest))
      = parseCore (f + 1) .val (printVal k j ++ rest) :=
    parseCore_val_congr f _ _ (skipWs_append_all hlead)
  rw [hin]
  cases j with
  | null => rfl
  | bool b => cases b <;> rfl
  | num n => exact parseCore_val_numCase f n rest hrest
  | str s => exact parseCore_val_strCase f s rest
  | arr xs =>
    cases xs with
    | nil => rfl
    | cons x xs =>
      have hre : printVal k (.arr (x :: xs)) ++ rest
          = '[' :: ('\n' :: (spacesN (k + 2) ++ (printVal (k + 2) x
            ++ (printArrItems (k + 2) xs
              ++ '\n' :: (spacesN k ++ (']' :: rest)))))) := by
        simp [printVal, List.append_assoc]
      rw [hre]
      have step : parseCore (f + 1) .val ('[' :: ('\n' :: (spacesN (k + 2)
            ++ (printVal (k + 2) x ++ (printArrItems (k + 2) xs
              ++ '\n' :: (spacesN k ++ (']' :: rest)))))))
          = match skipWs ('\n' :: (spacesN (k + 2) ++ (printVal (k + 2) x
              ++ (printArrItems (k + 2) xs
                ++ '\n' :: (spacesN k ++ (']' :: rest)))))) with
            | ']' :: r => some (.arr [], r)
            | _ => parseCore f (.arrElems []) ('\n' :: (spacesN (k + 2)
                ++ (printVal (k + 2) x ++ (printArrItems (k + 2) xs
                  ++ '\n' :: (spacesN k ++ (']' :: rest)))))) := rfl
      rw [step]
      have hsk : skipWs ('\n' :: (spacesN (k + 2) ++ (printVal (k + 2) x
            ++ (printArrItems (k + 2) xs
              ++ '\n' :: (spacesN k ++ (']' :: rest))))))
          = printVal (k + 2) x ++ (printArrItems (k + 2) xs
              ++ '\n' :: (spacesN k ++ (']' :: rest))) := by
        have : ('\n' :: (spacesN (k + 2) ++ (printVal (k + 2) x
            ++ (printArrItems (k + 2) xs
              ++ '\n' :: (spacesN k ++ (']' :: rest))))))
            = ('\n' :: spacesN (k + 2)) ++ ((printVal (k + 2) x
              ++ (printArrItems (k + 2) xs
                ++ '\n' :: (spacesN k ++ (']' :: rest))))) := by
          simp
        rw [this, skipWs_append_all
          (mem_cons_ws (by decide) (spacesN_all_ws _))]
        obtain ⟨c, t, hct, hws, _, _⟩ := printVal_head_spec (k + 2) x
        rw [hct, List.cons_append, skipWs_cons_not _ hws]
      rw [hsk]
      obtain ⟨c, t, hct, hws, hc1, hc2⟩ := printVal_head_spec (k + 2) x
      split
      · rename_i r heq
        rw [hct, List.cons_append] at heq
        exact absurd (List.cons.inj heq).1 hc1
      · have hrec := parseCore_arr_complete f x xs (k + 2) k
          ('\n' :: spacesN (k + 2))
          (mem_cons_ws (by decide) (spacesN_all_ws _)) [] rest
          (by
            have h1 : fuelOf (Json.arr (x :: xs)) ≤ f + 1 := hf
            simp only [fuelOf] at h1
            omega)
        simpa using hrec
  | obj fs =>
    cases fs with
    | nil => rfl
    | cons p fs =>
      obtain ⟨key, v⟩ := p
      have hre : printVal k (.obj ((key, v) :: fs)) ++ rest
          = lbrace :: ('\n' :: (spacesN (k + 2) ++ (printStrLit key
            ++ ':' :: ' ' :: (printVal (k + 2) v
              ++ (printObjItems (k + 2) fs
                ++ '\n' :: (spacesN k ++ (rbrace :: rest))))))) := by
        simp [printVal, List.append_assoc]
      rw [hre]
      have step : parseCore (f + 1) .val (lbrace :: ('\n' :: (spacesN (k + 2)
            ++ (printStrLit key ++ ':' :: ' ' :: (printVal (k + 2) v
              ++ (printObjItems (k + 2) fs
                ++ '\n' :: (spacesN k ++ (rbrace :: rest))))))))
          = match skipWs ('\n' :: (spacesN (k + 2) ++ (printStrLit key
              ++ ':' :: ' ' :: (printVal (k + 2) v
                ++ (printObjItems (k + 2) fs
                  ++ '\n' :: (spacesN k ++ (rbrace :: rest))))))) with
            | '\x7d' :: r => some (.obj [], r)
            | _ => parseCore f (.objFields []) ('\n' :: (spacesN (k + 2)
                ++ (printStrLit key ++ ':' :: ' ' :: (printVal (k + 2) v
                  ++ (printObjItems (k + 2) fs
                    ++ '\n' :: (spacesN k ++ (rbrace :: rest))))))) := rfl
      rw [step]
      have hsk : skipWs ('\n' :: (spacesN (k + 2) ++ (printStrLit key
            ++ ':' :: ' ' :: (printVal (k + 2) v
              ++ (printObjItems (k + 2) fs
                ++ '\n' :: (spacesN k ++ (rbrace :: rest)))))))
          = printStrLit key ++ ':' :: ' ' :: (printVal (k + 2) v
              ++ (printObjItems (k + 2) fs
                ++ '\n' :: (spacesN k ++ (rbrace :: rest)))) := by
        have : ('\n' :: (spacesN (k + 2) ++ (printStrLit key
            ++ ':' :: ' ' :: (printVal (k + 2) v
              ++ (printObjItems (k + 2) fs
                ++ '\n' :: (spacesN k ++ (rbrace :: rest)))))))
            = ('\n' :: spacesN (k + 2)) ++ (printStrLit key
              ++ ':' :: ' ' :: (printVal (k + 2) v
                ++ (printObjItems (k + 2) fs
                  ++ '\n' :: (spacesN k ++ (rbrace :: rest))))) := by
          simp
        rw [this, skipWs_append_all
          (mem_cons_ws (by decide) (spacesN_all_ws _))]
        rw [printStrLit, List.cons_append, skipWs_cons_not _ (by decide)]
      rw [hsk]
      split
      · rename_i r heq
        rw [printStrLit, List.cons_append] at heq
        have : '"' = '\x7d' := (List.cons.inj heq).1
        exact absurd this (by decide)
      · have hrec := parseCore_obj_complete f key v fs (k + 2) k
          ('\n' :: spacesN (k + 2))
          (mem_cons_ws (by decide) (spacesN_all_ws _)) [] rest
          (by
            have h1 : fuelOf (Json.obj ((key, v) :: fs)) ≤ f + 1 := hf
            simp only [fuelOf] at h1
            omega)
        simpa using hrec

theorem parseCore_arr_complete (fuel : Nat) (x : Json) (xs : List Json)
    (kIn kCl : Nat) (lead : List Char)
    (hlead : ∀ c ∈ lead, pyWs c = true) (acc : List Json) (rest : List Char)
    (hf : fuelList (x :: xs) ≤ fuel) :
    parseCore fuel (.arrElems acc)
        (lead ++ (printVal kIn x ++ (printArrItems kIn xs
          ++ '\n' :: (spacesN kCl ++ (']' :: rest)))))
      = some (.arr (acc ++ x :: xs), rest) := by
  obtain ⟨f, rfl⟩ : ∃ f, fuel = f + 1 :=
    ⟨fuel - 1, by have := fuelList_cons_pos x xs; omega⟩
  have hfx : fuelOf x ≤ f := by
    have := hf
    simp only [fuelList] at this
    omega
  have hfxs : fuelList xs ≤ f := by
    have := hf
    simp only [fuelList] at this
    omega
  have step : parseCore (f + 1) (.arrElems acc)
        (lead ++ (printVal kIn x ++ (printArrItems kIn xs
          ++ '\n' :: (spacesN kCl ++ (']' :: rest)))))
      = match parseCore f .val (lead ++ (printVal kIn x ++ (printArrItems kIn xs
          ++ '\n' :: (spacesN kCl ++ (']' :: rest))))) with
        | some (v, r) =>
          match skipWs r with
          | ',' :: r2 => parseCore f (.arrElems (acc ++ [v])) r2
          | ']' :: r2 => some (.arr (acc ++ [v]), r2)
          | _ => none
        | none => none := rfl
  rw [step]
  have htail : noDigitHead (printArrItems kIn xs
      ++ '\n' :: (spacesN kCl ++ (']' :: rest))) := by
    cases xs with
    | nil => exact noDigitHead_cons _ (by decide)
    | cons y ys => exact noDigitHead_cons _ (by decide)
  rw [parseCore_val_complete f lead hlead kIn x _ hfx htail]
  cases xs with
  | nil =>
    have hsk2 : skipWs (printArrItems kIn ([] : List Json)
        ++ '\n' :: (spacesN kCl ++ (']' :: rest))) = ']' :: rest := by
      simp only [printArrItems, List.nil_append]
      rw [skipWs, List.dropWhile_cons, if_pos (by decide),
        ← skipWs, skipWs_append_all (spacesN_all_ws _),
        skipWs_cons_not _ (by decide)]
    split
    · rename_i v2 r heq
      injection heq with heq2
      injection heq2 with hv hr
      subst hv
      subst hr
      rw [hsk2]
      rfl
    · rename_i heq
      exact absurd heq (by simp)
  | cons y ys =>
    have hsk2 : skipWs (printArrItems kIn (y :: ys)
        ++ '\n' :: (spacesN kCl ++ (']' :: rest)))
        = ',' :: ('\n' :: (spacesN kIn ++ (printVal kIn y
          ++ (printArrItems kIn ys
            ++ '\n' :: (spacesN kCl ++ (']' :: rest)))))) := by
      simp only [printArrItems, List.cons_append]
      rw [skipWs_cons_not _ (by decide)]
      simp [List.append_assoc]
    split
    · rename_i v2 r heq
      injection heq with heq2
      injection heq2 with hv hr
      subst hv
      subst hr
      rw [hsk2]
      have hrec := parseCore_arr_complete f y ys kIn kCl
        ('\n' :: spacesN kIn)
        (mem_cons_ws (by decide) (spacesN_all_ws _)) (acc ++ [x]) rest hfxs
      simpa [List.append_assoc] using hrec
    · rename_i heq
      exact absurd heq (by simp)

theorem parseCore_obj_complete (fuel : Nat) (key : String) (v : Json)
    (fs : List (String × Json)) (kIn kCl : Nat) (lead : List Char)
    (hlead : ∀ c ∈ lead, pyWs c = true) (acc : List (String × Json))
    (rest : List Char) (hf : fuelFields ((key, v) :: fs) ≤ fuel) :
    parseCore fuel (.objFields acc)
        (lead ++ (printStrLit key ++ ':' :: ' ' :: (printVal kIn v
          ++ (printObjItems kIn fs ++ '\n' :: (spacesN kCl
            ++ (rbrace :: rest))))))
      = some (.obj (acc ++ (key, v) :: fs), rest) := by
  obtain ⟨f, rfl⟩ : ∃ f, fuel = f + 1 :=
    ⟨fuel - 1, by have := fuelFields_cons_pos (key, v) fs; omega⟩
  have hfv : fuelOf v ≤ f := by
    have := hf
    simp only [fuelFields] at this
    omega
  have hffs : fuelFields fs ≤ f := by
    have := hf
    simp only [fuelFields] at this
    omega
  have step : parseCore (f + 1) (.objFields acc)
        (lead ++ (printStrLit key ++ ':' :: ' ' :: (printVal kIn v
          ++ (printObjItems kIn fs ++ '\n' :: (spacesN kCl
            ++ (rbrace :: rest))))))
      = match skipWs (lead ++ (printStrLit key ++ ':' :: ' ' :: (printVal kIn v
          ++ (printObjItems kIn fs ++ '\n' :: (spacesN kCl
            ++ (rbrace :: rest)))))) with
        | '"' :: r =>
          match parseStringBody r with
          | some (ks, r1) =>
            match skipWs r1 with
            | ':' :: r2 =>
              match parseCore f .val r2 with
              | some (v2, r3) =>
                match skipWs r3 with
                | ',' :: r4 =>
                  parseCore f (.objFields (acc ++ [(String.mk ks, v2)])) r4
                | '\x7d' :: r4 =>
                  some (.obj (acc ++ [(String.mk ks, v2)]), r4)
                | _ => none
              | none => none
            | _ => none
          | none => none
        | _ => none := rfl
  rw [step, skipWs_append_all hlead]
  have hq : printStrLit key ++ ':' :: ' ' :: (printVal kIn v
        ++ (printObjItems kIn fs ++ '\n' :: (spacesN kCl
          ++ (rbrace :: rest))))
      = '"' :: (escString key.data ++ '"' :: (':' :: ' ' :: (printVal kIn v
        ++ (printObjItems kIn fs ++ '\n' :: (spacesN kCl
          ++ (rbrace :: rest)))))) := by
    simp [printStrLit]
  rw [hq, skipWs_cons_not _ (by decide)]
  have hmid : (' ' :: (printVal kIn v ++ (printObjItems kIn fs
        ++ '\n' :: (spacesN kCl ++ (rbrace :: rest)))))
      = [' '] ++ (printVal kIn v ++ (printObjItems kIn fs
        ++ '\n' :: (spacesN kCl ++ (rbrace :: rest)))) := by
    simp
  have htail : noDigitHead (printObjItems kIn fs
      ++ '\n' :: (spacesN kCl ++ (rbrace :: rest))) := by
    cases fs with
    | nil => exact noDigitHead_cons _ (by decide)
    | cons p ps =>
      obtain ⟨k2, v2⟩ := p
      exact noDigitHead_cons _ (by decide)
  split
  · rename_i r heq
    injection heq with hc hr
    subst hr
    rw [parseStringBody_escString]
    split
    · rename_i ks r1 heq2
      injection heq2 with heq3
      injection heq3 with hks hr1
      subst hks
      subst hr1
      rw [skipWs_cons_not _ (by decide)]
      split
      · rename_i r2 heq4
        injection heq4 with hc2 hr2
        subst hr2
        rw [hmid, parseCore_val_complete f [' '] (by decide) kIn v _ hfv htail]
        split
        · rename_i v2 r3 heq5
          injection heq5 with heq6
          injection heq6 with hv2 hr3
          subst hv2
          subst hr3
          cases fs with
          | nil =>
            have hsk2 : skipWs (printObjItems kIn ([] : List (String × Json))
                ++ '\n' :: (spacesN kCl ++ (rbrace :: rest)))
                = rbrace :: rest := by
              simp only [printObjItems, List.nil_append]
              rw [skipWs, List.dropWhile_cons, if_pos (by decide),
                ← skipWs, skipWs_append_all (spacesN_all_ws _),
                skipWs_cons_not _ (by decide)]
            rw [hsk2, stringMk_data]
            rfl
          | cons p ps =>
            obtain ⟨k2, v2⟩ := p
            have hsk2 : skipWs (printObjItems kIn ((k2, v2) :: ps)
                ++ '\n' :: (spacesN kCl ++ (rbrace :: rest)))
                = ',' :: ('\n' :: (spacesN kIn ++ (printStrLit k2
                  ++ ':' :: ' ' :: (printVal kIn v2 ++ (printObjItems kIn ps
                    ++ '\n' :: (spacesN kCl ++ (rbrace :: rest))))))) := by
              simp only [printObjItems, List.cons_append]
              rw [skipWs_cons_not _ (by decide)]
              simp [List.append_assoc]
            rw [hsk2, stringMk_data]
            have hrec := parseCore_obj_complete f k2 v2 ps kIn kCl
              ('\n' :: spacesN kIn)
              (mem_cons_ws (by decide) (spacesN_all_ws _))
              (acc ++ [(key, v)]) rest hffs
            simpa [List.append_assoc] using hrec
        · rename_i heq5
          exact absurd heq5 (by simp)
      · rename_i hne
        exact absurd rfl (hne (' ' :: (printVal kIn v ++ (printObjItems kIn fs
          ++ '\n' :: (spacesN kCl ++ (rbrace :: rest))))))
    · rename_i heq2
      exact absurd heq2 (by simp)
  · rename_i hne
    exact absurd rfl (hne (escString key.data ++ '"' :: (':' :: ' '
      :: (printVal kIn v ++ (printObjItems kIn fs
        ++ '\n' :: (spacesN kCl ++ (rbrace :: rest)))))))

end

/-- Completeness of the reader on the printer's output: the JSON text layer
round-trips every value. -/
theorem parseJson_dumpJson (j : Json) : parseJson (dumpJson j).data = some j := by
  have hdata : (dumpJson j).data = printVal 0 j := rfl
  rw [parseJson, hdata]
  have h := parseCore_val_complete (2 * (printVal 0 j).length + 2) []
    (by simp) 0 j [] (by have := fuelOf_le_printVal 0 j; omega)
    (by intro c hc; simp at hc)
  simp only [List.nil_append, List.append_nil] at h
  rw [h]
  rfl

/-! ## Python primitives -/

theorem pySliceLast_length {α : Type} (l : List α) (k : Nat) (hk : 0 < k) :
    (pySliceLast l k).length = min k l.length := by
  simp only [pySliceLast, if_neg (Nat.pos_iff_ne_zero.mp hk), List.length_drop]
  omega

theorem pySliceLast_suffix {α : Type} (l : List α) (k : Nat) :
    pySliceLast l k <:+ l := by
  unfold pySliceLast
  split
  · exact List.suffix_refl l
  · exact ⟨l.take (l.length - k), List.take_append_drop _ l⟩

/-! ## ConversationStore -/

theorem appendPairs_concat (ps : List (String × String)) (p : String × String)
    (maxMsg : Nat) :
    appendPairs (ps ++ [p]) maxMsg
      = appendTurnPair (appendPairs ps maxMsg) p.1 p.2 maxMsg := by
  simp [appendPairs, List.foldl_append]

theorem allTurns_concat (ps : List (String × String)) (p : String × String) :
    allTurns (ps ++ [p]) = allTurns ps ++ [⟨"user", p.1⟩, ⟨"assistant", p.2⟩] := by
  simp [allTurns]

theorem appendTurnPair_length (ctx : List Turn) (q a : String) (maxMsg : Nat)
    (hm : 0 < maxMsg) :
    (appendTurnPair ctx q a maxMsg).length
      = if ctx.length + 2 > maxMsg then maxMsg else ctx.length + 2 := by
  unfold appendTurnPair
  by_cases h : ctx.length + 2 > maxMsg
  · have hlen : (ctx ++ [⟨"user", q⟩, ⟨"assistant", a⟩] : List Turn).length
        = ctx.length + 2 := by simp
    rw [if_pos (by omega), if_pos h, pySliceLast_length _ _ hm]
    omega
  · have : ¬ ((ctx ++ [⟨"user", q⟩, ⟨"assistant", a⟩] : List Turn).length > maxMsg) := by
      simp; omega
    rw [if_neg this, if_neg h]
    simp

theorem isSuffix_append_right {α : Type} {l₁ l₂ t : List α} (h : l₁ <:+ l₂) :
    l₁ ++ t <:+ l₂ ++ t := by
  obtain ⟨w, hw⟩ := h
  exact ⟨w, by rw [← List.append_assoc, hw]⟩

theorem appendTurnPair_suffix (ctx : List Turn) (q a : String) (maxMsg : Nat)
    {full : List Turn} (h : ctx <:+ full) :
    appendTurnPair ctx q a maxMsg <:+ full ++ [⟨"user", q⟩, ⟨"assistant", a⟩] := by
  simp only [appendTurnPair]
  have base : ctx ++ [⟨"user", q⟩, ⟨"assistant", a⟩]
      <:+ full ++ [⟨"user", q⟩, ⟨"assistant", a⟩] := isSuffix_append_right h
  split
  · exact List.IsSuffix.trans (pySliceLast_suffix _ _) base
  · exact base

/-- Core invariant of the conversation store, by induction from the tail. -/
theorem appendPairs_invariant (maxMsg : Nat) (hm : 0 < maxMsg)
    (ps : List (String × String)) :
    (appendPairs ps maxMsg).length = min (2 * ps.length) maxMsg ∧
      appendPairs ps maxMsg <:+ allTurns ps := by
  induction ps using List.reverseRecOn with
  | nil => simp [appendPairs, allTurns]
  | append_singleton ps p ih =>
    obtain ⟨ihlen, ihsuf⟩ := ih
    rw [appendPairs_concat, allTurns_concat]
    constructor
    · rw [appendTurnPair_length _ _ _ _ hm, ihlen]
      simp only [List.length_append, List.length_cons, List.length_nil]
      split <;> omega
    · exact appendTurnPair_suffix _ _ _ _ ihsuf

/-- C2.  For every sequence of appended user/assistant pairs starting from an
empty conversation, after every append (every prefix of the sequence) the
length of the context is `min (2·N) max_context_msg`, it is even whenever the
configured maximum is even (as the default 20 is), and the trimmed context is
a contiguous suffix of the untrimmed turn sequence, so entries are removed
only from the oldest end. -/
theorem conversation_bounded_even_suffix (maxMsg : Nat)
    (heven : 2 ∣ maxMsg) (hm : 0 < maxMsg) (ps : List (String × String)) :
    (appendPairs ps maxMsg).length = min (2 * ps.length) maxMsg ∧
      2 ∣ (appendPairs ps maxMsg).length ∧
      appendPairs ps maxMsg <:+ allTurns ps := by
  obtain ⟨hlen, hsuf⟩ := appendPairs_invariant maxMsg hm ps
  refine ⟨hlen, ?_, hsuf⟩
  rw [hlen]
  rcases Nat.le_total (2 * ps.length) maxMsg with h | h
  · rw [Nat.min_eq_left h]; exact ⟨ps.length, rfl⟩
  · rw [Nat.min_eq_right h]; exact heven

/-- Witness for C2 at the default configuration `max_context_msg = 20` and a
concrete two-exchange sequence. -/
theorem conversation_bounded_even_suffix_witness :
    2 ∣ max_context_msg ∧ 0 < max_context_msg ∧
      ((appendPairs [("q1", "a1"), ("q2", "a2")] max_context_msg).length
          = min (2 * 2) max_context_msg ∧
        2 ∣ (appendPairs [("q1", "a1"), ("q2", "a2")] max_context_msg).length ∧
        appendPairs [("q1", "a1"), ("q2", "a2")] max_context_msg
          <:+ allTurns [("q1", "a1"), ("q2", "a2")]) :=
  ⟨by decide, by decide,
    conversation_bounded_even_suffix max_context_msg (by decide) (by decide)
      [("q1", "a1"), ("q2", "a2")]⟩

/-! ## MentionParser -/

/-- C6.  The three reference mention-parsing cases: `"@bot hello there"` with
a span for `"@bot"` yields `addressed = true` and question `"hello there"`;
`"@bot"` alone yields `addressed = true` and the empty question, upon which
the handler emits the no-question prompt and changes nothing; `"hello"` with
no spans yields `addressed = false`, and the handler performs no further
processing: the state is untouched and no reply is produced. -/
theorem mention_parse_reference_cases :
    mentionParse "@bot hello there".data [⟨"mention", 0, 4⟩] "bot".data
        = (true, "hello there".data) ∧
      mentionParse "@bot".data [⟨"mention", 0, 4⟩] "bot".data
        = (true, []) ∧
      handle_mention ⟨defaultBotData, none, none⟩ "@bot".data
          [⟨"mention", 0, 4⟩] "bot".data "u" true (.ok "r")
        = (⟨defaultBotData, none, none⟩, .noQuestion "u") ∧
      mentionParse "hello".data [] "bot".data = (false, "hello".data) ∧
      handle_mention ⟨defaultBotData, none, none⟩ "hello".data []
          "bot".data "u" true (.ok "r")
        = (⟨defaultBotData, none, none⟩, .notAddressed) := by
  refine ⟨?_, ?_, ?_, ?_, ?_⟩ <;> decide

theorem infix_dropWhile_of_head {s l : List Char} (hne : s ≠ [])
    (hws : ∀ c ∈ s, pyWs c = false) (h : s <:+: l) :
    s <:+: l.dropWhile pyWs := by
  induction l with
  | nil =>
    rw [List.infix_nil] at h
    exact absurd h hne
  | cons x xs ih =>
    rw [List.dropWhile_cons]
    by_cases hx : pyWs x = true
    · rw [if_pos hx]
      rcases List.infix_cons_iff.mp h with hpre | hinf
      · obtain ⟨c, s', rfl⟩ : ∃ c s', s = c :: s' := by
          cases s with
          | nil => exact absurd rfl hne
          | cons c s' => exact ⟨c, s', rfl⟩
        obtain ⟨t, ht⟩ := hpre
        injection ht with h1 _
        have hc := hws c (by simp)
        rw [h1, hx] at hc
        exact absurd hc (by simp)
      · exact ih hinf
    · rw [if_neg hx]
      exact h

theorem infix_pyStrip {s l : List Char} (hne : s ≠ [])
    (hws : ∀ c ∈ s, pyWs c = false) (h : s <:+: l) : s <:+: pyStrip l := by
  unfold pyStrip
  have h1 : s <:+: l.dropWhile pyWs := infix_dropWhile_of_head hne hws h
  have h2 : s.reverse <:+: (l.dropWhile pyWs).reverse :=
    List.reverse_infix.mpr h1
  have h3 : s.reverse <:+: ((l.dropWhile pyWs).reverse).dropWhile pyWs :=
    infix_dropWhile_of_head (by simpa using hne)
      (by intro c hc; exact hws c (by simpa using hc)) h2
  have h4 := List.reverse_infix.mpr h3
  simpa using h4

theorem sliceSpan_infix_removeSpan (text : List Char) (e1 e2 : MsgEntity)
    (horder : e1.offset + e1.length ≤ e2.offset) :
    sliceSpan text e2 <:+: removeSpan text e1 := by
  unfold sliceSpan removeSpan
  have hdd : text.drop e2.offset
      = (text.drop (e1.offset + e1.length)).drop
          (e2.offset - (e1.offset + e1.length)) := by
    rw [List.drop_drop]
    congr 1
    omega
  rw [hdd]
  have h1 : ((text.drop (e1.offset + e1.length)).drop
        (e2.offset - (e1.offset + e1.length))).take e2.length
      <:+: text.drop (e1.offset + e1.length) :=
    List.IsInfix.trans (List.take_prefix _ _).isInfix
      (List.drop_suffix _ _).isInfix
  exact List.IsInfix.trans h1
    (⟨text.take e1.offset, [], by simp⟩ : _ <:+: _)

/-- C10.  When a message carries several mention spans addressing the bot,
only the first matching span is removed from the text when the question is
extracted; the text of any later matching span (being nonempty and free of
whitespace, as an `@handle` token is) remains verbatim — as a contiguous
substring — in the extracted question. -/
theorem mention_only_first_span_removed (text bot : List Char)
    (ents : List MsgEntity) (e1 e2 : MsgEntity)
    (hfirst : firstBotMention text bot ents = some e1)
    (_hmem : e2 ∈ ents) (_hmatch : entityMatches text bot e2 = true)
    (horder : e1.offset + e1.length ≤ e2.offset)
    (hne : sliceSpan text e2 ≠ [])
    (hws : ∀ c ∈ sliceSpan text e2, pyWs c = false) :
    mentionParse text ents bot = (true, pyStrip (removeSpan text e1)) ∧
      sliceSpan text e2 <:+: (mentionParse text ents bot).2 := by
  have hmp : mentionParse text ents bot = (true, pyStrip (removeSpan text e1)) := by
    unfold mentionParse
    rw [hfirst]
  refine ⟨hmp, ?_⟩
  rw [hmp]
  exact infix_pyStrip hne hws (sliceSpan_infix_removeSpan text e1 e2 horder)

/-- Witness for C10: `"@bot hi @bot"` with two mention spans; the question is
`"hi @bot"`, with the second `@bot` kept verbatim. -/
theorem mention_only_first_span_removed_witness :
    firstBotMention "@bot hi @bot".data "bot".data
        [⟨"mention", 0, 4⟩, ⟨"mention", 8, 4⟩] = some ⟨"mention", 0, 4⟩ ∧
      (⟨"mention", 8, 4⟩ : MsgEntity) ∈
        ([⟨"mention", 0, 4⟩, ⟨"mention", 8, 4⟩] : List MsgEntity) ∧
      entityMatches "@bot hi @bot".data "bot".data ⟨"mention", 8, 4⟩ = true ∧
      (0 : Nat) + 4 ≤ 8 ∧
      sliceSpan "@bot hi @bot".data ⟨"mention", 8, 4⟩ ≠ [] ∧
      (∀ c ∈ sliceSpan "@bot hi @bot".data ⟨"mention", 8, 4⟩, pyWs c = false) ∧
      (mentionParse "@bot hi @bot".data [⟨"mention", 0, 4⟩, ⟨"mention", 8, 4⟩]
            "bot".data
          = (true, pyStrip (removeSpan "@bot hi @bot".data ⟨"mention", 0, 4⟩)) ∧
        sliceSpan "@bot hi @bot".data ⟨"mention", 8, 4⟩ <:+:
          (mentionParse "@bot hi @bot".data
            [⟨"mention", 0, 4⟩, ⟨"mention", 8, 4⟩] "bot".data).2) :=
  ⟨by decide, by decide, by decide, by decide, by decide, by decide,
    mention_only_first_span_removed "@bot hi @bot".data "bot".data
      [⟨"mention", 0, 4⟩, ⟨"mention", 8, 4⟩] ⟨"mention", 0, 4⟩ ⟨"mention", 8, 4⟩
      (by decide) (by decide) (by decide) (by decide) (by decide) (by decide)⟩

/-! ## PersistenceManager: round-trip and self-healing -/

theorem turnOfJson_turnToJson (t : Turn) : turnOfJson (turnToJson t) = some t :=
  rfl

theorem turnsOfJson_map (l : List Turn) :
    turnsOfJson (l.map turnToJson) = some l := by
  induction l with
  | nil => rfl
  | cons t ts ih => simp [turnsOfJson, turnOfJson_turnToJson, ih]

theorem botDataOfJson_toJson (d : BotData) :
    botDataOfJson (botDataToJson d) = some d := by
  obtain ⟨ctx, kb, p⟩ := d
  simp [botDataToJson, botDataOfJson, turnsOfJson_map]

theorem load_data_of_save (d : BotData) :
    load_data (some (save_data d))
      = ⟨.wellFormed d, some (save_data d), false⟩ := by
  have hp : parseJson (save_data d).data = some (botDataToJson d) :=
    parseJson_dumpJson (botDataToJson d)
  simp [load_data, hp, botDataOfJson_toJson]

/-- C1.  Saving any valid state with `save_data` and loading the written file
with `load_data` restores exactly the saved state, leaves the file unchanged,
and flags no corruption. -/
theorem save_load_roundtrip (d : BotData) :
    load_data (some (save_data d))
      = ⟨.wellFormed d, some (save_data d), false⟩ :=
  load_data_of_save d

/-- C3.  On a file that fails to parse, `load_data` returns the default empty
state and immediately re-persists it; a second `load_data` on the re-written
file succeeds without entering the corruption branch and returns the same
default state. -/
theorem corrupt_load_selfheals (text : String)
    (hbad : parseJson text.data = none) :
    load_data (some text)
        = ⟨.wellFormed defaultBotData, some (save_data defaultBotData),
            true⟩ ∧
      load_data (some (save_data defaultBotData))
        = ⟨.wellFormed defaultBotData, some (save_data defaultBotData),
            false⟩ := by
  refine ⟨?_, load_data_of_save defaultBotData⟩
  simp [load_data, hbad]

/-- Witness for C3 at the concrete corrupt file `"oops"`. -/
theorem corrupt_load_selfheals_witness :
    parseJson ("oops".data) = none ∧
      (load_data (some "oops")
          = ⟨.wellFormed defaultBotData, some (save_data defaultBotData),
              true⟩ ∧
        load_data (some (save_data defaultBotData))
          = ⟨.wellFormed defaultBotData, some (save_data defaultBotData),
              false⟩) :=
  ⟨rfl, corrupt_load_selfheals "oops" rfl⟩

/-! ## CorpusLoader: idempotent full rebuild; context re-derivation -/

theorem load_all_docs_kb (entries : List DirEntry) (w : World) :
    (load_all_docs entries w).data.knowledge_base = buildKb entries := by
  rw [load_all_docs]
  cases w.historyFile <;> simp

/-- C4.  With the same directory contents, reloading twice yields a corpus
string byte-identical to one reload's; and the corpus after a reload does not
depend on the previous in-memory state at all — it is discarded and fully
rebuilt, never incrementally patched. -/
theorem reload_idempotent (entries : List DirEntry) :
    (∀ w, (load_all_docs entries
          (load_all_docs entries w)).data.knowledge_base
        = (load_all_docs entries w).data.knowledge_base) ∧
      ∀ w1 w2, (load_all_docs entries w1).data.knowledge_base
        = (load_all_docs entries w2).data.knowledge_base := by
  constructor
  · intro w
    rw [load_all_docs_kb, load_all_docs_kb]
  · intro w1 w2
    rw [load_all_docs_kb, load_all_docs_kb]

/-- C9 counterexample: a warm reload with the transcript file present does
not leave the in-memory conversation untouched.  With a non-empty in-memory
context and a transcript holding only its header, one reload resets the
context to the empty list. -/
theorem warm_reload_overwrites_context :
    (load_all_docs []
        ⟨⟨[⟨"user", "hi"⟩, ⟨"assistant", "yo"⟩], "", default_system_prompt⟩,
          none, some historyHeader⟩).data.conversation_context = [] ∧
      (⟨⟨[⟨"user", "hi"⟩, ⟨"assistant", "yo"⟩], "", default_system_prompt⟩,
          none, some historyHeader⟩ : World).data.conversation_context
        ≠ [] :=
  ⟨rfl, by decide⟩

/-- C9 amended: `load_all_docs` re-derives the conversation context from the
transcript file whenever that file exists — on every call, initial or warm —
trimming to the configured maximum; only when the file does not exist is the
in-memory context left untouched, and then the file is created holding just
its header. -/
theorem reload_context_policy (entries : List DirEntry) (w : World) :
    (load_all_docs entries w).data.conversation_context
        = (match w.historyFile with
          | some text => trimCtx (parseHistory text.data) max_context_msg
          | none => w.data.conversation_context) ∧
      (load_all_docs entries w).historyFile
        = (match w.historyFile with
          | some text => some text
          | none => some historyHeader) := by
  rw [load_all_docs]
  cases w.historyFile <;> simp

/-! ## UTF-8: byte accounting for the rotation -/

theorem toNat_ofNat_le (n : Nat) : (Char.ofNat n).toNat ≤ n := by
  by_cases h : n.isValidChar
  · rw [toNat_ofNat_valid n h]
  · rw [Char.ofNat, dif_neg h]
    show (0 : UInt32).toNat ≤ n
    simp

theorem charUtf8_length (c : Char) : (charUtf8 c).length
    = if c.toNat < 128 then 1 else if c.toNat < 2048 then 2
      else if c.toNat < 65536 then 3 else 4 := by
  rw [charUtf8]
  split_ifs <;> rfl

theorem charUtf8_ofNat_le (n bound : Nat) (hn : n < bound) :
    (charUtf8 (Char.ofNat n)).length
      ≤ if bound ≤ 128 then 1 else if bound ≤ 2048 then 2
        else if bound ≤ 65536 then 3 else 4 := by
  have h := toNat_ofNat_le n
  rw [charUtf8_length]
  split_ifs <;> omega

theorem utf8DecodeIgnore_succ_cons (f b : Nat) (bs : List Nat) :
    utf8DecodeIgnore (f + 1) (b :: bs)
      = (if b < 128 then Char.ofNat b :: utf8DecodeIgnore f bs
        else if 194 ≤ b ∧ b ≤ 223 then
          match bs with
          | c :: bs2 =>
            if contOk c then
              Char.ofNat ((b - 192) * 64 + (c - 128)) :: utf8DecodeIgnore f bs2
            else utf8DecodeIgnore f bs
          | [] => []
        else if 224 ≤ b ∧ b ≤ 239 then
          match bs with
          | c :: d :: bs2 =>
            if cont3Ok b c ∧ contOk d then
              Char.ofNat ((b - 224) * 4096 + (c - 128) * 64 + (d - 128))
                :: utf8DecodeIgnore f bs2
            else utf8DecodeIgnore f bs
          | _ => []
        else if 240 ≤ b ∧ b ≤ 244 then
          match bs with
          | c :: d :: e :: bs2 =>
            if cont4Ok b c ∧ contOk d ∧ contOk e then
              Char.ofNat ((b - 240) * 262144 + (c - 128) * 4096
                  + (d - 128) * 64 + (e - 128)) :: utf8DecodeIgnore f bs2
            else utf8DecodeIgnore f bs
          | _ => []
        else utf8DecodeIgnore f bs) := rfl

theorem cont3Ok_bounds {b c : Nat} (h : cont3Ok b c = true) :
    128 ≤ c ∧ c ≤ 191 := by
  simp only [cont3Ok] at h
  split_ifs at h <;> simp only [decide_eq_true_eq] at h <;> omega

theorem utf8DecodeIgnore_encode_le (fuel : Nat) :
    ∀ bs : List Nat, bs.length < fuel →
      ((utf8DecodeIgnore fuel bs).flatMap charUtf8).length ≤ bs.length := by
  induction fuel with
  | zero =>
    intro bs h
    simp [utf8DecodeIgnore]
  | succ f ih =>
    intro bs hlen
    match bs with
    | [] => simp [utf8DecodeIgnore]
    | b :: bs1 =>
      rw [utf8DecodeIgnore_succ_cons]
      simp only [List.length_cons] at hlen
      by_cases h1 : b < 128
      · rw [if_pos h1]
        have hc := charUtf8_ofNat_le b 128 h1
        simp only [List.flatMap_cons, List.length_append, List.length_cons]
        have := ih bs1 (by omega)
        simp only [if_pos (by omega : (128 : Nat) ≤ 128)] at hc
        omega
      rw [if_neg h1]
      by_cases h2 : 194 ≤ b ∧ b ≤ 223
      · rw [if_pos h2]
        split
        next c bs2 =>
          simp only [List.length_cons] at hlen ⊢
          split
          next hc1 =>
            simp only [contOk, decide_eq_true_eq] at hc1
            have hn : (b - 192) * 64 + (c - 128) < 2048 := by omega
            have hc := charUtf8_ofNat_le _ 2048 hn
            simp only [if_neg (by omega : ¬ (2048 : Nat) ≤ 128),
              if_pos (by omega : (2048 : Nat) ≤ 2048)] at hc
            simp only [List.flatMap_cons, List.length_append]
            have := ih bs2 (by omega)
            omega
          next hc1 =>
            have := ih (c :: bs2) (by simp only [List.length_cons]; omega)
            simp only [List.length_cons] at this
            omega
        next =>
          simp
      rw [if_neg h2]
      by_cases h3 : 224 ≤ b ∧ b ≤ 239
      · rw [if_pos h3]
        split
        next c d bs2 =>
          simp only [List.length_cons] at hlen ⊢
          split
          next hc1 =>
            obtain ⟨hcc, hdd⟩ := hc1
            simp only [contOk, decide_eq_true_eq] at hdd
            obtain ⟨hcl, hcu⟩ := cont3Ok_bounds hcc
            have hn : (b - 224) * 4096 + (c - 128) * 64 + (d - 128)
                < 65536 := by
              have hb : b ≤ 239 := h3.2
              omega
            have hc := charUtf8_ofNat_le _ 65536 hn
            simp only [if_neg (by omega : ¬ (65536 : Nat) ≤ 128),
              if_neg (by omega : ¬ (65536 : Nat) ≤ 2048),
              if_pos (by omega : (65536 : Nat) ≤ 65536)] at hc
            simp only [List.flatMap_cons, List.length_append]
            have := ih bs2 (by omega)
            omega
          next hc1 =>
            have := ih (c :: d :: bs2)
              (by simp only [List.length_cons]; omega)
            simp only [List.length_cons] at this
            omega
        next hne =>
          simp
      rw [if_neg h3]
      by_cases h4 : 240 ≤ b ∧ b ≤ 244
      · rw [if_pos h4]
        split
        next c d e bs2 =>
          simp only [List.length_cons] at hlen ⊢
          split
          next hc1 =>
            have hc : (charUtf8 (Char.ofNat ((b - 240) * 262144
                + (c - 128) * 4096 + (d - 128) * 64 + (e - 128)))).length
                ≤ 4 := by
              rw [charUtf8_length]
              split_ifs <;> omega
            simp only [List.flatMap_cons, List.length_append]
            have := ih bs2 (by omega)
            omega
          next hc1 =>
            have := ih (c :: d :: e :: bs2)
              (by simp only [List.length_cons]; omega)
            simp only [List.length_cons] at this
            omega
        next hne =>
          simp
      rw [if_neg h4]
      have := ih bs1 (by omega)
      simp only [List.length_cons]
      omega

theorem utf8Ignore_encode_le (bs : List Nat) :
    ((utf8Ignore bs).flatMap charUtf8).length ≤ bs.length :=
  utf8DecodeIgnore_encode_le (bs.length + 1) bs (by omega)

theorem utf8DecodeIgnore_ascii (fuel : Nat) :
    ∀ bs : List Nat, bs.length < fuel → (∀ b ∈ bs, b < 128) →
      utf8DecodeIgnore fuel bs = bs.map Char.ofNat := by
  induction fuel with
  | zero =>
    intro bs h _
    omega
  | succ f ih =>
    intro bs hlen hall
    match bs with
    | [] => simp [utf8DecodeIgnore]
    | b :: bs1 =>
      rw [utf8DecodeIgnore_succ_cons, if_pos (hall b (by simp))]
      simp only [List.length_cons] at hlen
      rw [ih bs1 (by omega) (fun x hx => hall x (by simp [hx]))]
      rfl

theorem utf8Ignore_ascii (bs : List Nat) (h : ∀ b ∈ bs, b < 128) :
    utf8Ignore bs = bs.map Char.ofNat :=
  utf8DecodeIgnore_ascii (bs.length + 1) bs (by omega) h

theorem strUtf8_mk (l : List Char) :
    strUtf8 (String.mk l) = l.flatMap charUtf8 := rfl

theorem strUtf8_append (a b : String) :
    strUtf8 (a ++ b) = strUtf8 a ++ strUtf8 b := by
  show ((a ++ b).data).flatMap charUtf8 = _
  have h : (a ++ b).data = a.data ++ b.data := rfl
  rw [h, List.flatMap_append]
  rfl

theorem strUtf8_replicate_a (m : Nat) :
    strUtf8 (String.mk (List.replicate m 'a')) = List.replicate m 97 := by
  rw [strUtf8_mk]
  induction m with
  | zero => rfl
  | succ k ih =>
    rw [List.replicate_succ, List.replicate_succ, List.flatMap_cons, ih]
    rfl

theorem bigHistoryFile_bytes :
    strUtf8 bigHistoryFile = List.replicate (max_chat_file_size + 1) 97 :=
  strUtf8_replicate_a _

/-! ## HistoryLog rotation (C5) -/

theorem rotate_bigHistoryFile :
    rotateHistory bigHistoryFile
      = rotationMarker ++ String.mk (List.replicate trim_to_size 'a') := by
  rw [rotateHistory, bigHistoryFile_bytes]
  rw [if_pos (by rw [List.length_replicate]; omega)]
  rw [List.length_replicate, List.drop_replicate]
  have hd : max_chat_file_size + 1 - (max_chat_file_size + 1 - trim_to_size)
      = trim_to_size := by
    simp only [max_chat_file_size, trim_to_size]
  rw [hd]
  have ha : utf8Ignore (List.replicate trim_to_size 97)
      = List.replicate trim_to_size 'a' := by
    rw [utf8Ignore_ascii _ (by
      intro b hb
      rw [List.eq_of_mem_replicate hb]
      omega), List.map_replicate]
  rw [ha]

/-- C5 counterexample: for an ASCII history file one byte over the hard cap,
one history append produces a file strictly larger than soft cap + one new
record: the rotation marker's bytes exceed the claimed bound. -/
theorem rotation_exceeds_softcap_plus_record :
    (strUtf8 (historyAppendText (some bigHistoryFile) recQA)).length
      > trim_to_size + (strUtf8 recQA).length := by
  have h1 : historyAppendText (some bigHistoryFile) recQA
      = (rotationMarker ++ String.mk (List.replicate trim_to_size 'a'))
        ++ recQA := by
    rw [historyAppendText, rotate_bigHistoryFile]
  rw [h1, strUtf8_append, strUtf8_append]
  simp only [List.length_append]
  have h2 : (strUtf8 (String.mk (List.replicate trim_to_size 'a'))).length
      = trim_to_size := by
    rw [strUtf8_replicate_a, List.length_replicate]
  have h3 : 0 < (strUtf8 rotationMarker).length := by decide
  omega

/-- C5 amended: for any history file over the hard cap, one append produces
exactly marker ++ decoded-trailing-slice ++ new record — the rotation happens
strictly before the record is appended and the marker leads the file — and
the resulting byte size is at most soft cap + the rotation marker + the one
new record. -/
theorem rotation_bound (content record : String)
    (hover : (strUtf8 content).length > max_chat_file_size) :
    historyAppendText (some content) record
        = (rotationMarker ++ String.mk (utf8Ignore ((strUtf8 content).drop
            ((strUtf8 content).length - trim_to_size)))) ++ record ∧
      (strUtf8 (historyAppendText (some content) record)).length
        ≤ (strUtf8 rotationMarker).length + trim_to_size
          + (strUtf8 record).length ∧
      pyStartsWith (historyAppendText (some content) record).data
        rotationMarker.data = true := by
  have htrim : trim_to_size ≤ (strUtf8 content).length := by
    simp only [max_chat_file_size] at hover
    simp only [trim_to_size]
    omega
  have hrot : rotateHistory content
      = rotationMarker ++ String.mk (utf8Ignore ((strUtf8 content).drop
          ((strUtf8 content).length - trim_to_size))) := by
    rw [rotateHistory, if_pos hover]
  have happ : historyAppendText (some content) record
      = (rotationMarker ++ String.mk (utf8Ignore ((strUtf8 content).drop
          ((strUtf8 content).length - trim_to_size)))) ++ record := by
    rw [historyAppendText, hrot]
  refine ⟨happ, ?_, ?_⟩
  · rw [happ, strUtf8_append, strUtf8_append]
    simp only [List.length_append]
    have hmid : (strUtf8 (String.mk (utf8Ignore ((strUtf8 content).drop
        ((strUtf8 content).length - trim_to_size))))).length
        ≤ trim_to_size := by
      rw [strUtf8_mk]
      have hle := utf8Ignore_encode_le ((strUtf8 content).drop
        ((strUtf8 content).length - trim_to_size))
      have hdl : ((strUtf8 content).drop
          ((strUtf8 content).length - trim_to_size)).length
          = trim_to_size := by
        rw [List.length_drop]
        omega
      omega
    omega
  · rw [happ]
    have hdata : ((rotationMarker ++ String.mk (utf8Ignore
          ((strUtf8 content).drop ((strUtf8 content).length - trim_to_size))))
        ++ record).data
        = rotationMarker.data
          ++ ((String.mk (utf8Ignore ((strUtf8 content).drop
              ((strUtf8 content).length - trim_to_size)))).data
            ++ record.data) := by
      show (rotationMarker.data ++ _) ++ _ = _
      rw [List.append_assoc]
    rw [pyStartsWith, hdata]
    exact List.isPrefixOf_iff_prefix.mpr (List.prefix_append _ _)

/-- Witness for C5's amended rotation bound at the concrete oversized file. -/
theorem rotation_bound_witness :
    (strUtf8 bigHistoryFile).length > max_chat_file_size ∧
      (historyAppendText (some bigHistoryFile) recQA
          = (rotationMarker ++ String.mk (utf8Ignore
              ((strUtf8 bigHistoryFile).drop
                ((strUtf8 bigHistoryFile).length - trim_to_size)))) ++ recQA ∧
        (strUtf8 (historyAppendText (some bigHistoryFile) recQA)).length
          ≤ (strUtf8 rotationMarker).length + trim_to_size
            + (strUtf8 recQA).length ∧
        pyStartsWith (historyAppendText (some bigHistoryFile) recQA).data
          rotationMarker.data = true) :=
  ⟨by rw [bigHistoryFile_bytes, List.length_replicate]; omega,
    rotation_bound bigHistoryFile recQA
      (by rw [bigHistoryFile_bytes, List.length_replicate]; omega)⟩

/-! ## PromptAssembler: commit ordering and failure path -/

/-- C7.  On a successful model exchange, `handle_mention`'s side effects are
exactly the composition of the three commit steps in this order: append the
pair to the conversation (with its trim), persist the full state to the data
file, then append the record to the history log.  After the first two steps
and before the third — the crash window — the data file already holds the
new state while the history file is untouched, so a crash there loses at
most the log line, never persisted state. -/
theorem commit_order_and_crash_window (w : World) (text : List Char)
    (ents : List MsgEntity) (bot : List Char) (userName : String)
    (reply : String) (q : List Char)
    (hparse : mentionParse text ents bot = (true, q)) (hq : q ≠ []) :
    handle_mention w text ents bot userName true (.ok reply)
        = (stepHistory (String.mk q) reply
            (stepPersist (stepContext (String.mk q) reply w)),
          .answered reply) ∧
      (stepPersist (stepContext (String.mk q) reply w)).dataFile
          = some (save_data (stepContext (String.mk q) reply w).data) ∧
      (stepPersist (stepContext (String.mk q) reply w)).historyFile
          = w.historyFile := by
  refine ⟨?_, rfl, rfl⟩
  simp [handle_mention, hparse, hq, stepContext, stepPersist, stepHistory]

/-- Witness for C7 at a concrete world and exchange. -/
theorem commit_order_and_crash_window_witness :
    mentionParse "@bot hi".data [⟨"mention", 0, 4⟩] "bot".data
        = (true, "hi".data) ∧
      "hi".data ≠ ([] : List Char) ∧
      (handle_mention ⟨defaultBotData, none, none⟩ "@bot hi".data
            [⟨"mention", 0, 4⟩] "bot".data "u" true (.ok "yo")
          = (stepHistory (String.mk "hi".data) "yo"
              (stepPersist (stepContext (String.mk "hi".data) "yo"
                ⟨defaultBotData, none, none⟩)),
            .answered "yo") ∧
        (stepPersist (stepContext (String.mk "hi".data) "yo"
              ⟨defaultBotData, none, none⟩)).dataFile
          = some (save_data (stepContext (String.mk "hi".data) "yo"
              ⟨defaultBotData, none, none⟩).data) ∧
        (stepPersist (stepContext (String.mk "hi".data) "yo"
              ⟨defaultBotData, none, none⟩)).historyFile
          = (⟨defaultBotData, none, none⟩ : World).historyFile) :=
  ⟨by decide, by decide,
    commit_order_and_crash_window ⟨defaultBotData, none, none⟩
      "@bot hi".data [⟨"mention", 0, 4⟩] "bot".data "u" "yo" "hi".data
      (by decide) (by decide)⟩

/-- C8.  When the external model invocation fails, the failure is surfaced to
the caller as a single failure reply carrying the underlying cause, and
nothing is mutated: the in-memory state, the data file and the history file
of the resulting world are exactly those of the input world. -/
theorem model_error_no_mutation (w : World) (text : List Char)
    (ents : List MsgEntity) (bot : List Char) (userName : String)
    (e : String) (q : List Char)
    (hparse : mentionParse text ents bot = (true, q)) (hq : q ≠ []) :
    handle_mention w text ents bot userName true (.err e)
      = (w, .failed ("❌ 回答失败：" ++ e)) := by
  simp [handle_mention, hparse, hq]

/-- Witness for C8 at a concrete world and failing exchange. -/
theorem model_error_no_mutation_witness :
    mentionParse "@bot hi".data [⟨"mention", 0, 4⟩] "bot".data
        = (true, "hi".data) ∧
      "hi".data ≠ ([] : List Char) ∧
      handle_mention ⟨defaultBotData, none, none⟩ "@bot hi".data
          [⟨"mention", 0, 4⟩] "bot".data "u" true (.err "timeout")
        = (⟨defaultBotData, none, none⟩, .failed ("❌ 回答失败：" ++ "timeout")) :=
  ⟨by decide, by decide,
    model_error_no_mutation ⟨defaultBotData, none, none⟩ "@bot hi".data
      [⟨"mention", 0, 4⟩] "bot".data "u" "timeout" "hi".data
      (by decide) (by decide)⟩

end TgBot
